import Mathlib

/-
  Verification development for the docu_eater repository.

  The repository ships a React frontend (under src/frontend and the unnamed
  source parts) that talks to a crawl backend.  The backend core itself (task
  state machine, frontier, worker pool, documentation map builder) is not part
  of the shipped sources; those components are modelled here from the
  specification (each such definition carries a doc comment starting with
  "Modelled from the spec:").  Frontend code (type declarations, the API
  service, page components) is embedded directly from the TypeScript sources.
-/

namespace DocuEater

/-! ### Generic list helpers -/

theorem foldl_preserve {α β : Type} (f : α → β → α) (P : α → Prop)
    (h : ∀ a b, P a → P (f a b)) :
    ∀ (l : List β) (a : α), P a → P (l.foldl f a) := by
  intro l
  induction l with
  | nil => intro a ha; exact ha
  | cons b bs ih => intro a ha; exact ih _ (h a b ha)

theorem map_eraseIdx {α β : Type} (f : α → β) :
    ∀ (l : List α) (i : Nat), (l.eraseIdx i).map f = (l.map f).eraseIdx i := by
  intro l
  induction l with
  | nil => intro i; simp [List.eraseIdx]
  | cons a as ih =>
    intro i
    cases i with
    | zero => simp [List.eraseIdx]
    | succ j => simp [List.eraseIdx, ih j]

theorem mem_of_getElemQ {α : Type} :
    ∀ (l : List α) (i : Nat) (a : α), l[i]? = some a → a ∈ l := by
  intro l
  induction l with
  | nil => intro i a h; simp at h
  | cons b bs ih =>
    intro i a h
    cases i with
    | zero => simp at h; simp [h]
    | succ j =>
      simp at h
      exact List.mem_cons_of_mem _ (ih j a h)

theorem not_mem_eraseIdx_of_nodup {α : Type} :
    ∀ (l : List α) (i : Nat) (a : α), l.Nodup → l[i]? = some a →
      a ∉ l.eraseIdx i := by
  intro l
  induction l with
  | nil => intro i a _ h; simp at h
  | cons b bs ih =>
    intro i a hnd h
    cases i with
    | zero =>
      simp at h
      subst h
      simp [List.eraseIdx]
      exact (List.nodup_cons.mp hnd).1
    | succ j =>
      simp at h
      simp [List.eraseIdx]
      constructor
      · intro hab
        subst hab
        exact (List.nodup_cons.mp hnd).1 (mem_of_getElemQ bs j a h)
      · exact ih j a (List.nodup_cons.mp hnd).2 h

/-! ### The crawl core, modelled from the spec -/

/-- Modelled from the spec: the traversal strategy selectable per task
(`crawl_type`), breadth-first (FIFO) or depth-first (LIFO). -/
inductive CrawlType where
  | breadth
  | depth
deriving DecidableEq

/-- Modelled from the spec: the opaque Page Fetch Gateway together with the
external link graph.  `fetch(url)` returns page content, outbound links, a
title and a success or failure signal; we keep the parts the core observes:
outbound links, title, and the success flag. -/
structure LinkGraph where
  links : String → List String
  fetchOk : String → Bool
  title : String → String

/-- Modelled from the spec: the per-task crawl configuration the worker pool
reads (root URL, max depth, page budget, worker concurrency bound, traversal
discipline). -/
structure CrawlParams where
  rootUrl : String
  maxDepth : Nat
  maxPages : Nat
  workers : Nat
  crawlType : CrawlType

/-- Modelled from the spec: a VisitedPage records the absolute URL, the page
title (possibly empty) and the discovery order index. -/
structure VisitedPage where
  url : String
  title : String
  order : Nat
deriving DecidableEq

/-- Modelled from the spec: a FrontierEntry is a URL paired with its discovery
depth (distance from root in link hops). -/
structure FrontierEntry where
  url : String
  depth : Nat
deriving DecidableEq

/-- Modelled from the spec: the shared state of one crawl task while the
worker pool drives it: the frontier, the in-flight fetches, the recorded
VisitedPages, the counters (`pages_indexed`, `links_followed`, `errors`) and
the fatal-failure flag carrying the error message of a root fetch failure. -/
structure CrawlState where
  frontier : List FrontierEntry
  inflight : List FrontierEntry
  visited : List VisitedPage
  pages_indexed : Nat
  links_followed : Nat
  errors : Nat
  failed : Option String
deriving DecidableEq

def visitedUrls (s : CrawlState) : List String := s.visited.map (·.url)

def frontierUrls (s : CrawlState) : List String := s.frontier.map (·.url)

def inflightUrls (s : CrawlState) : List String := s.inflight.map (·.url)

/-- All URLs the task has seen: visited, queued, or in flight. -/
def allUrls (s : CrawlState) : List String :=
  visitedUrls s ++ frontierUrls s ++ inflightUrls s

/-- Modelled from the spec: `offer(url, depth)` silently drops the entry if
the URL is already visited, already queued or in flight, if the depth exceeds
the configured max depth, or if the visited count plus the in-flight count has
already reached `max_pages`; otherwise it is appended to the frontier (stable
insertion order). -/
def offer (p : CrawlParams) (s : CrawlState) (e : FrontierEntry) : CrawlState :=
  if e.url ∈ visitedUrls s ∨ e.url ∈ frontierUrls s ∨ e.url ∈ inflightUrls s
      ∨ p.maxDepth < e.depth
      ∨ p.maxPages ≤ s.visited.length + s.inflight.length
  then s
  else { s with frontier := s.frontier ++ [e] }

/-- Offer every URL of a list at a fixed depth, in order. -/
def offerAll (p : CrawlParams) (s : CrawlState) (d : Nat) (ls : List String) :
    CrawlState :=
  ls.foldl (fun t u => offer p t ⟨u, d⟩) s

/-- Modelled from the spec: `recordPageVisited(task)` atomically increments
`pages_indexed` and advances `links_followed`, and is a no-op once
`pages_indexed` has reached `max_pages`; because the counters and the
VisitedPage set must stay consistent (`pages_indexed` equals the size of the
VisitedPage set), the VisitedPage is recorded by the same atomic update.  The
spec leaves open whether `links_followed` counts all discovered links or only
dequeued ones; following the stated depth-limit behaviour (discovered but
never enqueued links are still reflected) it advances by the number of links
discovered on the page. -/
def recordPageVisited (p : CrawlParams) (s : CrawlState)
    (u t : String) (nLinks : Nat) : CrawlState :=
  if s.pages_indexed < p.maxPages then
    { s with visited := s.visited ++ [⟨u, t, s.visited.length⟩],
             pages_indexed := s.pages_indexed + 1,
             links_followed := s.links_followed + nLinks }
  else s

/-- Modelled from the spec: `recordError(task, message)` increments the
`errors` counter and does not itself change the status. -/
def recordError (s : CrawlState) : CrawlState :=
  { s with errors := s.errors + 1 }

/-- Modelled from the spec: `finish(task, failed, message)` marks the task
terminally failed with its error message. -/
def finishFailed (s : CrawlState) (msg : String) : CrawlState :=
  { s with failed := some msg }

/-- Modelled from the spec: on a successful fetch the worker creates a
VisitedPage, calls `recordPageVisited`, and offers each outbound link at
`depth + 1`. -/
def completeOk (p : CrawlParams) (g : LinkGraph) (s : CrawlState)
    (e : FrontierEntry) (rest : List FrontierEntry) : CrawlState :=
  offerAll p
    (recordPageVisited p { s with inflight := rest } e.url (g.title e.url)
      (g.links e.url).length)
    (e.depth + 1) (g.links e.url)

/-- Modelled from the spec: on a failed fetch the worker calls `recordError`;
if the failing URL is the root URL the task is aborted immediately via
`finish(task, failed, message)`; non-root failures are recorded and crawling
continues. -/
def completeErr (p : CrawlParams) (s : CrawlState)
    (e : FrontierEntry) (rest : List FrontierEntry) : CrawlState :=
  let s1 := recordError { s with inflight := rest }
  if e.url = p.rootUrl then
    finishFailed s1 ("Failed to fetch root URL: " ++ e.url)
  else s1

/-- Poll the frontier according to the configured discipline: breadth-first
takes the oldest entry (FIFO), depth-first the newest (LIFO).  Ties within
the same depth keep insertion order (stable queue). -/
def pollEntry (ct : CrawlType) (l : List FrontierEntry) :
    Option (FrontierEntry × List FrontierEntry) :=
  match l with
  | [] => none
  | e :: es =>
    match ct with
    | .breadth => some (e, es)
    | .depth => some ((e :: es).getLast (by simp), (e :: es).dropLast)

/-- A scheduler choice: dispatch the next frontier entry to a free worker, or
let the i-th in-flight fetch complete. -/
inductive Choice where
  | dispatch
  | complete (i : Nat)

/-- Modelled from the spec: one atomic step of the worker pool.  A failed
task takes no further steps (workers observe the flag and stop).  `dispatch`
moves a polled frontier entry in flight, but only while `pages_indexed` is
below the budget and a worker is free.  `complete i` finishes the i-th
in-flight fetch via the gateway outcome. -/
def step (p : CrawlParams) (g : LinkGraph) (s : CrawlState) (c : Choice) :
    CrawlState :=
  if s.failed.isSome then s
  else
    match c with
    | .dispatch =>
      if s.pages_indexed < p.maxPages ∧ s.inflight.length < p.workers then
        match pollEntry p.crawlType s.frontier with
        | some (e, rest) =>
          { s with frontier := rest, inflight := s.inflight ++ [e] }
        | none => s
      else s
    | .complete i =>
      match s.inflight[i]? with
      | some e =>
        if g.fetchOk e.url then completeOk p g s e (s.inflight.eraseIdx i)
        else completeErr p s e (s.inflight.eraseIdx i)
      | none => s

/-- Modelled from the spec: the orchestrator seeds the frontier with the root
URL at depth 0 and zeroed counters. -/
def initState (p : CrawlParams) : CrawlState :=
  ⟨[⟨p.rootUrl, 0⟩], [], [], 0, 0, 0, none⟩

/-- Run a schedule of worker-pool choices from the seeded state. -/
def run (p : CrawlParams) (g : LinkGraph) (cs : List Choice) : CrawlState :=
  cs.foldl (step p g) (initState p)

/-- Modelled from the spec: the crawl phase of a task has ended successfully
when no fetch is in flight and either the frontier is exhausted or the page
budget is reached (remaining frontier entries are then discarded); the task
then transitions through `processing` to `completed`. -/
def crawlCompleted (p : CrawlParams) (s : CrawlState) : Prop :=
  s.failed = none ∧ s.inflight = [] ∧
    (s.frontier = [] ∨ s.pages_indexed = p.maxPages)

instance (p : CrawlParams) (s : CrawlState) : Decidable (crawlCompleted p s) := by
  unfold crawlCompleted
  infer_instance

/-- URLs reachable from the root through the external link graph. -/
inductive Reachable (g : LinkGraph) (root : String) : String → Prop
  | root : Reachable g root root
  | step {u v : String} : Reachable g root u → v ∈ g.links u →
      Reachable g root v

/-! ### URL parsing shared by config validation and the map builder -/

/-- Strip an absolute http or https scheme from a character list, returning
the remainder, or `none` when the URL is not absolute. -/
def dropScheme (cs : List Char) : Option (List Char) :=
  if ("http://".data).isPrefixOf cs then some (cs.drop 7)
  else if ("https://".data).isPrefixOf cs then some (cs.drop 8)
  else none

/-- Split a character list on the slash character. -/
def splitSlash : List Char → List (List Char)
  | [] => [[]]
  | c :: cs =>
    if c = '/' then [] :: splitSlash cs
    else
      match splitSlash cs with
      | [] => [[c]]
      | seg :: rest => (c :: seg) :: rest

/-- Modelled from the spec: parse a URL into its host and its ordered path
segments; well-formed absolute URLs have an http or https scheme and a
non-empty host.  Empty path segments (from a trailing slash or doubled
slashes) are dropped, so the root page of a host has no segments. -/
def parseUrl (s : String) : Option (String × List String) :=
  match dropScheme s.data with
  | none => none
  | some rest =>
    match splitSlash rest with
    | [] => none
    | host :: pathParts =>
      if host = [] then none
      else some (String.mk host, (pathParts.filter (· ≠ [])).map String.mk)

/-! ### The task state machine, modelled from the spec -/

/-- Modelled from the spec: task status, with `queued` the only initial state
and `completed` and `failed` terminal. -/
inductive TaskStatus where
  | queued
  | crawling
  | processing
  | completed
  | failed
deriving DecidableEq

/-- Modelled from the spec: the error taxonomy of the core (MapBuildError is
kept separate because it is fatal only to the map-build operation). -/
inductive CrawlError where
  | invalidConfig
  | fetchError
  | rootFetchError
  | illegalTransition
deriving DecidableEq

/-- Modelled from the spec: the crawl request configuration (root URL, max
depth, max pages, traversal strategy, robots flag, user agent). -/
structure CrawlConfig where
  url : String
  max_depth : Nat
  max_pages : Nat
  crawl_type : CrawlType
  respect_robots_txt : Bool
  user_agent : String

/-- Modelled from the spec: one crawl Task as held by the task registry. -/
structure Task where
  task_id : String
  url : String
  config : CrawlConfig
  status : TaskStatus
  start_time : Nat
  end_time : Option Nat
  pages_indexed : Nat
  links_followed : Nat
  errors : Nat
  error : Option String

/-- Modelled from the spec: configuration validation for `create` — the URL
must be well-formed and absolute, and `1 ≤ max_depth` and `1 ≤ max_pages`. -/
def validConfig (c : CrawlConfig) : Bool :=
  (parseUrl c.url).isSome && decide (1 ≤ c.max_depth) && decide (1 ≤ c.max_pages)

/-- Modelled from the spec: `create(config)` validates the configuration and
fails with `InvalidConfig` otherwise; on success it yields a Task with status
`queued`, `pages_indexed = 0` and no end time. -/
def create (idStr : String) (now : Nat) (c : CrawlConfig) :
    Except CrawlError Task :=
  if validConfig c then
    .ok { task_id := idStr, url := c.url, config := c, status := .queued,
          start_time := now, end_time := none, pages_indexed := 0,
          links_followed := 0, errors := 0, error := none }
  else .error .invalidConfig

/-- Modelled from the spec: `submitTask(config)` creates a Task via `create`,
stores it in the task registry and returns its identifier; when validation
fails no Task is created and the registry is untouched. -/
def submitTask (reg : List Task) (idStr : String) (now : Nat)
    (c : CrawlConfig) : Except CrawlError (String × List Task) :=
  match create idStr now c with
  | .ok t => .ok (t.task_id, reg ++ [t])
  | .error e => .error e

/-! ### The documentation map builder, modelled from the spec -/

/-- The DocMapNode wire shape: identifier, display name, optional source URL
(absent for pure groupings), ordered children (empty for leaves). -/
inductive DocMapNode where
  | mk (id : String) (name : String) (url : Option String)
      (children : List DocMapNode)

def DocMapNode.id : DocMapNode → String
  | .mk i _ _ _ => i

def DocMapNode.name : DocMapNode → String
  | .mk _ n _ _ => n

def DocMapNode.url : DocMapNode → Option String
  | .mk _ _ u _ => u

def DocMapNode.children : DocMapNode → List DocMapNode
  | .mk _ _ _ cs => cs

mutual

def nodeBeq : DocMapNode → DocMapNode → Bool
  | .mk i n u cs, .mk i2 n2 u2 cs2 =>
    i == i2 && n == n2 && u == u2 && nodesBeq cs cs2

def nodesBeq : List DocMapNode → List DocMapNode → Bool
  | [], [] => true
  | a :: as, b :: bs => nodeBeq a b && nodesBeq as bs
  | _, _ => false

end

mutual

theorem nodeBeq_iff : ∀ a b : DocMapNode, nodeBeq a b = true ↔ a = b
  | .mk i n u cs, .mk i2 n2 u2 cs2 => by
    simp [nodeBeq, nodesBeq_iff cs cs2, and_assoc]

theorem nodesBeq_iff : ∀ as bs : List DocMapNode, nodesBeq as bs = true ↔ as = bs
  | [], [] => by simp [nodesBeq]
  | [], _ :: _ => by simp [nodesBeq]
  | _ :: _, [] => by simp [nodesBeq]
  | a :: as, b :: bs => by
    simp [nodesBeq, nodeBeq_iff a b, nodesBeq_iff as bs]

end

instance : DecidableEq DocMapNode := fun a b =>
  decidable_of_iff (nodeBeq a b = true) (nodeBeq_iff a b)

/-- Modelled from the spec: the failure modes of the map builder — it has no
failure mode beyond malformed input (a URL that does not parse, or an input
with no pages at all to root the tree at). -/
inductive MapBuildError where
  | emptyInput
  | malformedUrl (url : String)
deriving DecidableEq

/-- A leaf node for one visited page.  The wire shape carries no title field;
the display name is the terminal path segment (matching the observed maps),
so the page title argument is unused. -/
def mkLeaf (idStr s u _t : String) : DocMapNode :=
  .mk idStr s (some u) []

/-- Split a child list at the first node satisfying the predicate. -/
def splitFirst (p : DocMapNode → Bool) :
    List DocMapNode → Option (List DocMapNode × DocMapNode × List DocMapNode)
  | [] => none
  | c :: cs =>
    if p c then some ([], c, cs)
    else (splitFirst p cs).map (fun q => (c :: q.1, q.2.1, q.2.2))

/-- Modelled from the spec: walk the segment-indexed tree for one page.  An
empty segment list marks the index page of the current node (the crawl root
collapses into the root node).  At the terminal segment a leaf carrying the
page title and URL is attached: into the same-named grouping when one exists
(folder and leaf names may collide; children are disambiguated by type),
otherwise appended in discovery order.  For an inner segment the walk
descends into the same-named grouping, converts a same-named leaf into a
grouping that keeps that leaf as its index-page child, or lazily creates a
fresh grouping. -/
def insertSegs : List String → String → String → DocMapNode → DocMapNode
  | [], u, _t, .mk i nm _ cs => .mk i nm (some u) cs
  | s :: rest, u, t, .mk i nm ur cs =>
    match rest with
    | [] =>
      match splitFirst (fun c => c.name = s && c.url.isNone) cs with
      | some (a, .mk ci cn cu cc, b) =>
        .mk i nm ur
          (a ++ [.mk ci cn cu (cc ++ [mkLeaf (ci ++ "/" ++ s) s u t])] ++ b)
      | none => .mk i nm ur (cs ++ [mkLeaf (i ++ "/" ++ s) s u t])
    | _ :: _ =>
      match splitFirst (fun c => c.name = s && c.url.isNone) cs with
      | some (a, grp, b) => .mk i nm ur (a ++ [insertSegs rest u t grp] ++ b)
      | none =>
        match splitFirst (fun c => c.name = s && c.url.isSome) cs with
        | some (a, leaf0, b) =>
          .mk i nm ur
            (a ++
              [insertSegs rest u t (.mk (i ++ "/" ++ s) s none [leaf0])] ++ b)
        | none =>
          .mk i nm ur
            (cs ++ [insertSegs rest u t (.mk (i ++ "/" ++ s) s none [])])

/-- Parse every visited page into its host and path segments, failing with
`MapBuildError.malformedUrl` on the first URL that does not parse. -/
def parsePages :
    List VisitedPage →
      Except MapBuildError (List ((String × List String) × VisitedPage))
  | [] => .ok []
  | p :: ps =>
    match parseUrl p.url with
    | none => .error (.malformedUrl p.url)
    | some hs =>
      match parsePages ps with
      | .error e => .error e
      | .ok rest => .ok ((hs, p) :: rest)

/-- Modelled from the spec: the Documentation Map Builder.  It consumes the
ordered VisitedPage sequence, parses each URL into path segments (scheme and
host collapse into the root node, named after the host of the first page) and
folds every page into the segment-indexed tree in discovery order.  It is a
pure function: it performs no I/O, and on malformed input it fails with a
`MapBuildError` without exposing any partial map. -/
def buildMap (vs : List VisitedPage) : Except MapBuildError DocMapNode :=
  match parsePages vs with
  | .error e => .error e
  | .ok [] => .error .emptyInput
  | .ok (x :: rest) =>
    .ok ((x :: rest).foldl (fun acc y => insertSegs y.1.2 y.2.url y.2.title acc)
      (.mk "root" x.1.1 none []))

/-! ### Frontend code embedded from the TypeScript sources -/

/-- From src/frontend/src/types/index.ts: the optional stats object of a
`CrawlTask` (every field optional in the interface). -/
structure CrawlStatsW where
  pages_indexed : Option Nat
  max_pages : Option Nat
  links_followed : Option Nat
  errors : Option Nat

/-- From src/frontend/src/types/index.ts: the `CrawlTask` interface as the
client consumes it (TypeScript `number` modelled as `Nat`). -/
structure CrawlTaskW where
  task_id : String
  status : String
  url : String
  start_time : Option String
  end_time : Option String
  duration : Option Nat
  stats : Option CrawlStatsW
  error : Option String

/-- From the task detail page (renderDocumentTree): a node renders as a
folder exactly when its children array is non-empty. -/
def isFolder (n : DocMapNode) : Bool :=
  decide (0 < n.children.length)

/-- Model of the JavaScript whitespace test used by String.prototype.trim
(restricted to the common ASCII whitespace characters). -/
def isJsWhitespace (c : Char) : Bool :=
  c = ' ' || c = '\t' || c = '\n' || c = '\r'

/-- Model of JavaScript String.prototype.trim: strip whitespace from both
ends. -/
def jsTrim (s : String) : String :=
  String.mk (((s.data.dropWhile isJsWhitespace).reverse.dropWhile
    isJsWhitespace).reverse)

/-- Model of JavaScript String.prototype.startsWith as used by the form. -/
def strHasPrefix (s p : String) : Bool :=
  p.data.isPrefixOf s.data

/-- From the NewCrawlPage handleSubmit handler: an input that trims to the
empty string is rejected before any request is made; otherwise the trimmed
URL is submitted, with "https://" prepended when it starts with neither
"http://" nor "https://". -/
def handleSubmitUrl (url : String) : Option String :=
  if jsTrim url = "" then none
  else if strHasPrefix (jsTrim url) "http://"
      || strHasPrefix (jsTrim url) "https://" then some (jsTrim url)
  else some ("https://" ++ jsTrim url)

/-- Outcome of the underlying HTTP request made by the API service. -/
inductive HttpOutcome (α : Type) where
  | success (value : α)
  | failure (message : String)

/-- From the API service (ApiService.getAllTasks): return the response data
on success, and the empty list instead of throwing on any failure. -/
def getAllTasks (r : HttpOutcome (List CrawlTaskW)) : List CrawlTaskW :=
  match r with
  | .success ts => ts
  | .failure _ => []

/-! ### Wire-shape descriptors for the contract comparison -/

/-- Field value kinds appearing in the two wire contracts. -/
inductive WireTy where
  | str
  | num
  | statsObj
  | nodeList
deriving DecidableEq

/-- A named field with its required flag and value kind. -/
abbrev FieldList := List (String × Bool × WireTy)

/-- From src/frontend/src/types/index.ts: the fields of `CrawlTask` in
declaration order (`?` marks an optional field there). -/
def codeCrawlTaskFields : FieldList :=
  [("task_id", true, .str), ("status", true, .str), ("url", true, .str),
   ("start_time", false, .str), ("end_time", false, .str),
   ("duration", false, .num), ("stats", false, .statsObj),
   ("error", false, .str)]

/-- From src/frontend/src/types/index.ts: the fields of the stats object of
`CrawlTask` (all optional). -/
def codeCrawlStatsFields : FieldList :=
  [("pages_indexed", false, .num), ("max_pages", false, .num),
   ("links_followed", false, .num), ("errors", false, .num)]

/-- From src/frontend/src/types/index.ts: the fields of `DocMapNode`. -/
def codeDocMapNodeFields : FieldList :=
  [("id", true, .str), ("name", true, .str), ("url", false, .str),
   ("children", true, .nodeList)]

/-- Modelled from the spec: the TaskSnapshot wire contract
`task_id, url, status, start_time, end_time?, stats, error?`. -/
def specTaskSnapshotFields : FieldList :=
  [("task_id", true, .str), ("url", true, .str), ("status", true, .str),
   ("start_time", true, .str), ("end_time", false, .str),
   ("stats", true, .statsObj), ("error", false, .str)]

/-- Modelled from the spec: the stats block of the TaskSnapshot contract,
`stats(pages_indexed, max_pages, links_followed, errors)`, all present. -/
def specStatsFields : FieldList :=
  [("pages_indexed", true, .num), ("max_pages", true, .num),
   ("links_followed", true, .num), ("errors", true, .num)]

/-- Modelled from the spec: the DocMapNode wire contract
`(id, name, url?, children)`. -/
def specDocMapNodeFields : FieldList :=
  [("id", true, .str), ("name", true, .str), ("url", false, .str),
   ("children", true, .nodeList)]

/-- The signature a field list assigns to a name: its required flag and
kind, when the field is declared. -/
def sigOf (fs : FieldList) (n : String) : Option (Bool × WireTy) :=
  (fs.find? (fun q => q.1 == n)).map (fun q => q.2)

/-- One field signature only widens another when the kind is unchanged and a
field the code requires is also required by the contract. -/
def widensAt (ssig csig : Option (Bool × WireTy)) : Bool :=
  match ssig, csig with
  | some (r, ty), some (r2, ty2) => ty == ty2 && (!r2 || r)
  | some _, none => false
  | none, some _ => true
  | none, none => true

/-! ### Elementary facts about offers, polling and steps -/

theorem offer_visited (p : CrawlParams) (s : CrawlState) (e : FrontierEntry) :
    (offer p s e).visited = s.visited := by
  unfold offer; split <;> rfl

theorem offer_inflight (p : CrawlParams) (s : CrawlState) (e : FrontierEntry) :
    (offer p s e).inflight = s.inflight := by
  unfold offer; split <;> rfl

theorem offer_pages (p : CrawlParams) (s : CrawlState) (e : FrontierEntry) :
    (offer p s e).pages_indexed = s.pages_indexed := by
  unfold offer; split <;> rfl

theorem offer_links (p : CrawlParams) (s : CrawlState) (e : FrontierEntry) :
    (offer p s e).links_followed = s.links_followed := by
  unfold offer; split <;> rfl

theorem offer_errors (p : CrawlParams) (s : CrawlState) (e : FrontierEntry) :
    (offer p s e).errors = s.errors := by
  unfold offer; split <;> rfl

theorem offer_failed (p : CrawlParams) (s : CrawlState) (e : FrontierEntry) :
    (offer p s e).failed = s.failed := by
  unfold offer; split <;> rfl

theorem offerAll_cons (p : CrawlParams) (s : CrawlState) (d : Nat)
    (u : String) (ls : List String) :
    offerAll p s d (u :: ls) = offerAll p (offer p s ⟨u, d⟩) d ls := rfl

theorem offerAll_visited (p : CrawlParams) (d : Nat) (ls : List String) :
    ∀ s : CrawlState, (offerAll p s d ls).visited = s.visited := by
  induction ls with
  | nil => intro s; rfl
  | cons u ls ih =>
    intro s
    rw [offerAll_cons, ih, offer_visited]

theorem visitedUrls_offerAll (p : CrawlParams) (d : Nat) (ls : List String)
    (s : CrawlState) : visitedUrls (offerAll p s d ls) = visitedUrls s := by
  simp [visitedUrls, offerAll_visited]

theorem offerAll_inflight (p : CrawlParams) (d : Nat) (ls : List String) :
    ∀ s : CrawlState, (offerAll p s d ls).inflight = s.inflight := by
  induction ls with
  | nil => intro s; rfl
  | cons u ls ih =>
    intro s
    rw [offerAll_cons, ih, offer_inflight]

theorem offerAll_pages (p : CrawlParams) (d : Nat) (ls : List String) :
    ∀ s : CrawlState, (offerAll p s d ls).pages_indexed = s.pages_indexed := by
  induction ls with
  | nil => intro s; rfl
  | cons u ls ih =>
    intro s
    rw [offerAll_cons, ih, offer_pages]

theorem offerAll_links (p : CrawlParams) (d : Nat) (ls : List String) :
    ∀ s : CrawlState, (offerAll p s d ls).links_followed = s.links_followed := by
  induction ls with
  | nil => intro s; rfl
  | cons u ls ih =>
    intro s
    rw [offerAll_cons, ih, offer_links]

theorem offerAll_errors (p : CrawlParams) (d : Nat) (ls : List String) :
    ∀ s : CrawlState, (offerAll p s d ls).errors = s.errors := by
  induction ls with
  | nil => intro s; rfl
  | cons u ls ih =>
    intro s
    rw [offerAll_cons, ih, offer_errors]

theorem offerAll_failed (p : CrawlParams) (d : Nat) (ls : List String) :
    ∀ s : CrawlState, (offerAll p s d ls).failed = s.failed := by
  induction ls with
  | nil => intro s; rfl
  | cons u ls ih =>
    intro s
    rw [offerAll_cons, ih, offer_failed]

theorem offer_cases (p : CrawlParams) (s : CrawlState) (e : FrontierEntry) :
    offer p s e = s ∨
    offer p s e = { s with frontier := s.frontier ++ [e] } := by
  unfold offer
  split
  · exact Or.inl rfl
  · exact Or.inr rfl

theorem allUrls_addFrontier (s : CrawlState) (e : FrontierEntry) :
    allUrls { s with frontier := s.frontier ++ [e] } =
      visitedUrls s ++ (frontierUrls s ++ [e.url]) ++ inflightUrls s := by
  simp [allUrls, visitedUrls, frontierUrls, inflightUrls]

theorem offerAll_frontier_append (p : CrawlParams) (d : Nat)
    (ls : List String) :
    ∀ s : CrawlState, ∃ ex : List FrontierEntry,
      (offerAll p s d ls).frontier = s.frontier ++ ex ∧
      ∀ e2 ∈ ex, e2.url ∈ ls ∧ e2.depth = d := by
  induction ls with
  | nil => intro s; exact ⟨[], by simp [offerAll], by simp⟩
  | cons u ls ih =>
    intro s
    rw [offerAll_cons]
    rcases offer_cases p s ⟨u, d⟩ with hc | hc <;> rw [hc]
    · obtain ⟨ex, hex, hmem⟩ := ih s
      exact ⟨ex, hex, fun e2 he2 =>
        ⟨List.mem_cons_of_mem _ (hmem e2 he2).1, (hmem e2 he2).2⟩⟩
    · obtain ⟨ex, hex, hmem⟩ := ih { s with frontier := s.frontier ++ [⟨u, d⟩] }
      refine ⟨⟨u, d⟩ :: ex, ?_, ?_⟩
      · rw [hex]; simp
      · intro e2 he2
        rcases List.mem_cons.mp he2 with h | h
        · subst h; simp
        · exact ⟨List.mem_cons_of_mem _ (hmem e2 h).1, (hmem e2 h).2⟩

theorem offer_mem_mono (p : CrawlParams) (s : CrawlState) (e : FrontierEntry)
    (x : String) (hx : x ∈ allUrls s) : x ∈ allUrls (offer p s e) := by
  rcases offer_cases p s e with hc | hc <;> rw [hc]
  · exact hx
  · rw [allUrls_addFrontier]
    simp only [allUrls, List.mem_append] at hx ⊢
    tauto

theorem offerAll_mem_mono (p : CrawlParams) (d : Nat) (ls : List String) :
    ∀ (s : CrawlState) (x : String), x ∈ allUrls s →
      x ∈ allUrls (offerAll p s d ls) := by
  induction ls with
  | nil => intro s x hx; exact hx
  | cons u ls ih =>
    intro s x hx
    rw [offerAll_cons]
    exact ih _ x (offer_mem_mono p s ⟨u, d⟩ x hx)

theorem offerAll_id_of_budget (p : CrawlParams) (d : Nat) (ls : List String)
    (s : CrawlState)
    (hbud : p.maxPages ≤ s.visited.length + s.inflight.length) :
    offerAll p s d ls = s := by
  induction ls with
  | nil => rfl
  | cons u ls ih =>
    rw [offerAll_cons]
    have : offer p s ⟨u, d⟩ = s := by
      unfold offer
      rw [if_pos]
      right; right; right; right; exact hbud
    rw [this]
    exact ih

theorem offerAll_id_of_depth (p : CrawlParams) (d : Nat) (ls : List String)
    (s : CrawlState) (hdep : p.maxDepth < d) :
    offerAll p s d ls = s := by
  induction ls with
  | nil => rfl
  | cons u ls ih =>
    rw [offerAll_cons]
    have : offer p s ⟨u, d⟩ = s := by
      unfold offer
      rw [if_pos]
      right; right; right; left; exact hdep
    rw [this]
    exact ih

theorem offerAll_covers (p : CrawlParams) (d : Nat) (ls : List String)
    (hd : d ≤ p.maxDepth) :
    ∀ s : CrawlState, ∀ v ∈ ls,
      v ∈ allUrls (offerAll p s d ls) ∨
        p.maxPages ≤ s.visited.length + s.inflight.length := by
  induction ls with
  | nil => intro s v hv; simp at hv
  | cons u ls ih =>
    intro s v hv
    rw [offerAll_cons]
    have hfields : (offer p s ⟨u, d⟩).visited = s.visited ∧
        (offer p s ⟨u, d⟩).inflight = s.inflight :=
      ⟨offer_visited p s _, offer_inflight p s _⟩
    rcases List.mem_cons.mp hv with hvu | hvm
    · subst hvu
      by_cases hmem : v ∈ visitedUrls s ∨ v ∈ frontierUrls s ∨ v ∈ inflightUrls s
      · left
        apply offerAll_mem_mono
        apply offer_mem_mono
        simp only [allUrls, List.mem_append]
        tauto
      · by_cases hbud : p.maxPages ≤ s.visited.length + s.inflight.length
        · right; exact hbud
        · left
          apply offerAll_mem_mono
          have hacc : offer p s ⟨v, d⟩ =
              { s with frontier := s.frontier ++ [⟨v, d⟩] } := by
            unfold offer
            rw [if_neg]
            push_neg
            refine ⟨?_, ?_, ?_, ?_, ?_⟩
            · intro h; exact hmem (Or.inl h)
            · intro h; exact hmem (Or.inr (Or.inl h))
            · intro h; exact hmem (Or.inr (Or.inr h))
            · exact hd
            · exact Nat.lt_of_not_le hbud
          rw [hacc, allUrls_addFrontier]
          simp [List.mem_append]
    · rcases ih (offer p s ⟨u, d⟩) v hvm with h | h
      · left; exact h
      · right; rw [hfields.1, hfields.2] at h; exact h

theorem offerAll_urls_pred (p : CrawlParams) (d : Nat) (ls : List String)
    (P : String → Prop) (hls : ∀ v ∈ ls, P v) :
    ∀ s : CrawlState, (∀ x ∈ allUrls s, P x) →
      ∀ x ∈ allUrls (offerAll p s d ls), P x := by
  induction ls with
  | nil => intro s h x hx; exact h x hx
  | cons u ls ih =>
    intro s h x hx
    rw [offerAll_cons] at hx
    refine ih (fun v hv => hls v (List.mem_cons_of_mem _ hv)) _ ?_ x hx
    intro y hy
    rcases offer_cases p s ⟨u, d⟩ with hc | hc <;> rw [hc] at hy
    · exact h y hy
    · rw [allUrls_addFrontier] at hy
      have hcase : y ∈ allUrls s ∨ y = u := by
        simp only [List.mem_append, List.mem_singleton] at hy
        simp only [allUrls, List.mem_append]
        tauto
      rcases hcase with hm | hm
      · exact h y hm
      · subst hm; exact hls y (List.mem_cons_self y ls)

theorem pollEntry_perm {ct : CrawlType} {l rest : List FrontierEntry}
    {e : FrontierEntry} (h : pollEntry ct l = some (e, rest)) :
    l.Perm (e :: rest) := by
  cases l with
  | nil => simp [pollEntry] at h
  | cons a as =>
    cases ct with
    | breadth =>
      simp [pollEntry] at h
      rw [← h.1, ← h.2]
    | depth =>
      simp [pollEntry] at h
      rw [← h.1, ← h.2]
      have hsplit : (a :: as).dropLast ++ [(a :: as).getLast (by simp)]
          = a :: as := List.dropLast_append_getLast (by simp)
      have hp : ((a :: as).dropLast ++ [(a :: as).getLast (by simp)]).Perm
          ((a :: as).getLast (by simp) :: (a :: as).dropLast) :=
        List.perm_append_singleton _ _
      rw [hsplit] at hp
      exact hp

theorem pollEntry_singleton (ct : CrawlType) (e : FrontierEntry) :
    pollEntry ct [e] = some (e, []) := by
  cases ct <;> rfl

/-- Case analysis of one worker-pool step: it is a no-op, a dispatch, a
successful completion, or a failed completion. -/
theorem step_cases (p : CrawlParams) (g : LinkGraph) (s : CrawlState)
    (c : Choice) :
    step p g s c = s ∨
    (∃ e rest, s.failed = none ∧ s.pages_indexed < p.maxPages ∧
      s.inflight.length < p.workers ∧
      pollEntry p.crawlType s.frontier = some (e, rest) ∧
      step p g s c = { s with frontier := rest,
                              inflight := s.inflight ++ [e] }) ∨
    (∃ i e, s.failed = none ∧ s.inflight[i]? = some e ∧
      g.fetchOk e.url = true ∧
      step p g s c = completeOk p g s e (s.inflight.eraseIdx i)) ∨
    (∃ i e, s.failed = none ∧ s.inflight[i]? = some e ∧
      g.fetchOk e.url = false ∧
      step p g s c = completeErr p s e (s.inflight.eraseIdx i)) := by
  by_cases hf : s.failed.isSome
  · left; simp [step, hf]
  · have hfn : s.failed = none := Option.not_isSome_iff_eq_none.mp hf
    cases c with
    | dispatch =>
      by_cases hg : s.pages_indexed < p.maxPages ∧ s.inflight.length < p.workers
      · cases hpoll : pollEntry p.crawlType s.frontier with
        | none => left; simp [step, hf, hg, hpoll]
        | some pr =>
          right; left
          exact ⟨pr.1, pr.2, hfn, hg.1, hg.2, by simp [hpoll],
            by simp [step, hf, hg, hpoll]⟩
      · left; simp [step, hf, hg]
    | complete i =>
      cases hidx : s.inflight[i]? with
      | none => left; simp [step, hf, hidx]
      | some e =>
        by_cases hok : g.fetchOk e.url
        · right; right; left
          exact ⟨i, e, hfn, hidx, hok, by simp [step, hf, hidx, hok]⟩
        · right; right; right
          refine ⟨i, e, hfn, hidx, Bool.eq_false_iff.mpr hok,
            by simp [step, hf, hidx, hok]⟩

/-! ### Nodup bookkeeping for the URL sets -/

theorem offer_cases2 (p : CrawlParams) (s : CrawlState) (e : FrontierEntry) :
    offer p s e = s ∨
    (e.url ∉ visitedUrls s ∧ e.url ∉ frontierUrls s ∧ e.url ∉ inflightUrls s ∧
      e.depth ≤ p.maxDepth ∧
      s.visited.length + s.inflight.length < p.maxPages ∧
      offer p s e = { s with frontier := s.frontier ++ [e] }) := by
  unfold offer
  split
  · exact Or.inl rfl
  · rename_i hcond
    push_neg at hcond
    exact Or.inr ⟨hcond.1, hcond.2.1, hcond.2.2.1, hcond.2.2.2.1,
      hcond.2.2.2.2, rfl⟩

theorem nodup_all_erase (V F I : List String) (i : Nat)
    (h : (V ++ F ++ I).Nodup) : (V ++ F ++ I.eraseIdx i).Nodup :=
  h.sublist ((List.eraseIdx_sublist I i).append_left (V ++ F))

theorem nodup_triple (V F I : List String) (h : (V ++ F ++ I).Nodup) :
    V.Nodup ∧ F.Nodup ∧ I.Nodup ∧
      (∀ x ∈ V, x ∉ F) ∧ (∀ x ∈ V, x ∉ I) ∧ (∀ x ∈ F, x ∉ I) := by
  rw [List.append_assoc, List.nodup_append] at h
  obtain ⟨hV, hFI, hVd⟩ := h
  rw [List.nodup_append] at hFI
  obtain ⟨hF, hI, hFd⟩ := hFI
  refine ⟨hV, hF, hI, ?_, ?_, ?_⟩
  · intro x hx hxF; exact hVd hx (List.mem_append.mpr (Or.inl hxF))
  · intro x hx hxI; exact hVd hx (List.mem_append.mpr (Or.inr hxI))
  · intro x hx hxI; exact hFd hx hxI

theorem nodup_insert_frontier (V F I : List String) (u : String)
    (h : (V ++ F ++ I).Nodup) (h1 : u ∉ V) (h2 : u ∉ F) (h3 : u ∉ I) :
    (V ++ (F ++ [u]) ++ I).Nodup := by
  have heq : V ++ (F ++ [u]) ++ I = (V ++ F) ++ u :: I := by simp
  rw [heq, List.nodup_middle, List.nodup_cons]
  constructor
  · simp [h1, h2, h3]
  · simpa using h

theorem nodup_move_to_visited (V F I : List String) (i : Nat) (a : String)
    (h : (V ++ F ++ I).Nodup) (ha : I[i]? = some a) :
    ((V ++ [a]) ++ F ++ I.eraseIdx i).Nodup := by
  obtain ⟨hV, hF, hI, hVF, hVI, hFI⟩ := nodup_triple V F I h
  have hmemI : a ∈ I := mem_of_getElemQ I i a ha
  have heq : (V ++ [a]) ++ F ++ I.eraseIdx i = V ++ a :: (F ++ I.eraseIdx i) :=
    by simp
  rw [heq, List.nodup_middle, List.nodup_cons]
  constructor
  · intro hmem
    rcases List.mem_append.mp hmem with hm | hm
    · exact hVI a hm hmemI
    · rcases List.mem_append.mp hm with hm2 | hm2
      · exact hFI a hm2 hmemI
      · exact not_mem_eraseIdx_of_nodup I i a hI ha hm2
  · have : (V ++ F ++ I.eraseIdx i).Nodup := nodup_all_erase V F I i h
    simpa using this

theorem offer_nodup (p : CrawlParams) (s : CrawlState) (e : FrontierEntry)
    (h : (allUrls s).Nodup) : (allUrls (offer p s e)).Nodup := by
  rcases offer_cases2 p s e with hc | ⟨h1, h2, h3, _, _, hc⟩ <;> rw [hc]
  · exact h
  · rw [allUrls_addFrontier]
    exact nodup_insert_frontier _ _ _ _ h h1 h2 h3

theorem offerAll_nodup (p : CrawlParams) (d : Nat) (ls : List String) :
    ∀ s : CrawlState, (allUrls s).Nodup →
      (allUrls (offerAll p s d ls)).Nodup := by
  induction ls with
  | nil => intro s h; exact h
  | cons u ls ih =>
    intro s h
    rw [offerAll_cons]
    exact ih _ (offer_nodup p s ⟨u, d⟩ h)

theorem perm_dispatch (V R I : List String) (a : String) (F : List String)
    (hF : F.Perm (a :: R)) : (V ++ F ++ I).Perm (V ++ R ++ (I ++ [a])) := by
  have h1 : (V ++ F ++ I).Perm (V ++ (a :: R) ++ I) :=
    (hF.append_left V).append_right I
  have h2 : (V ++ (a :: (R ++ I))).Perm (V ++ ((R ++ I) ++ [a])) :=
    (List.perm_append_singleton a (R ++ I)).symm.append_left V
  have h3 : (V ++ (a :: R) ++ I).Perm (V ++ R ++ (I ++ [a])) := by
    simpa [List.append_assoc] using h2
  exact h1.trans h3

theorem completeErr_fields (p : CrawlParams) (s : CrawlState)
    (e : FrontierEntry) (rest : List FrontierEntry) :
    (completeErr p s e rest).visited = s.visited ∧
    (completeErr p s e rest).pages_indexed = s.pages_indexed ∧
    (completeErr p s e rest).frontier = s.frontier ∧
    (completeErr p s e rest).inflight = rest ∧
    (completeErr p s e rest).links_followed = s.links_followed := by
  unfold completeErr
  split <;> simp [finishFailed, recordError]

theorem recordPageVisited_cases (p : CrawlParams) (s : CrawlState)
    (u t : String) (n : Nat) :
    (s.pages_indexed < p.maxPages ∧ recordPageVisited p s u t n =
      { s with visited := s.visited ++ [⟨u, t, s.visited.length⟩],
               pages_indexed := s.pages_indexed + 1,
               links_followed := s.links_followed + n }) ∨
    (p.maxPages ≤ s.pages_indexed ∧ recordPageVisited p s u t n = s) := by
  unfold recordPageVisited
  split
  · exact Or.inl ⟨by assumption, rfl⟩
  · exact Or.inr ⟨Nat.le_of_not_lt (by assumption), rfl⟩

theorem completeOk_cases (p : CrawlParams) (g : LinkGraph) (s : CrawlState)
    (e : FrontierEntry) (rest : List FrontierEntry) :
    (s.pages_indexed < p.maxPages ∧
      completeOk p g s e rest = offerAll p
        { s with inflight := rest,
                 visited :=
                   s.visited ++ [⟨e.url, g.title e.url, s.visited.length⟩],
                 pages_indexed := s.pages_indexed + 1,
                 links_followed :=
                   s.links_followed + (g.links e.url).length }
        (e.depth + 1) (g.links e.url)) ∨
    (p.maxPages ≤ s.pages_indexed ∧
      completeOk p g s e rest = offerAll p { s with inflight := rest }
        (e.depth + 1) (g.links e.url)) := by
  unfold completeOk recordPageVisited
  by_cases hlt : s.pages_indexed < p.maxPages
  · left
    refine ⟨hlt, ?_⟩
    simp [hlt]
  · right
    refine ⟨Nat.le_of_not_lt hlt, ?_⟩
    simp [hlt]

/-! ### The unconditional counter and uniqueness invariant -/

/-- The invariant every crawl state reachable from the seeded state
satisfies, for any graph and parameters: `pages_indexed` equals the number of
recorded VisitedPages, it never exceeds `max_pages`, and no URL appears twice
across the visited set, the frontier and the in-flight set. -/
def InvCore (p : CrawlParams) (s : CrawlState) : Prop :=
  s.pages_indexed = s.visited.length ∧ s.pages_indexed ≤ p.maxPages ∧
    (allUrls s).Nodup

theorem invCore_init (p : CrawlParams) : InvCore p (initState p) := by
  refine ⟨rfl, Nat.zero_le _, ?_⟩
  simp [initState, allUrls, visitedUrls, frontierUrls, inflightUrls]

theorem invCore_step (p : CrawlParams) (g : LinkGraph) (s : CrawlState)
    (c : Choice) (h : InvCore p s) : InvCore p (step p g s c) := by
  obtain ⟨hpe, hpl, hnd⟩ := h
  rcases step_cases p g s c with hs |
    ⟨e, rest, _, _, _, hpoll, hs⟩ | ⟨i, e, _, hidx, _, hs⟩ |
    ⟨i, e, _, hidx, _, hs⟩ <;> rw [hs]
  · exact ⟨hpe, hpl, hnd⟩
  · refine ⟨hpe, hpl, ?_⟩
    have hpermF : (frontierUrls s).Perm (e.url :: rest.map (·.url)) := by
      have hm := (pollEntry_perm hpoll).map (fun q : FrontierEntry => q.url)
      simpa [frontierUrls] using hm
    have hperm : (allUrls s).Perm
        (visitedUrls s ++ rest.map (·.url) ++
          (inflightUrls s ++ [e.url])) :=
      perm_dispatch _ _ _ _ _ hpermF
    have : allUrls { s with frontier := rest, inflight := s.inflight ++ [e] }
        = visitedUrls s ++ rest.map (·.url) ++
          (inflightUrls s ++ [e.url]) := by
      simp [allUrls, visitedUrls, frontierUrls, inflightUrls]
    rw [this]
    exact hperm.nodup_iff.mp hnd
  · unfold completeOk
    have hiu : (inflightUrls s)[i]? = some e.url := by
      simp [inflightUrls, List.getElem?_map, hidx]
    rcases recordPageVisited_cases p { s with inflight := s.inflight.eraseIdx i }
        e.url (g.title e.url) (g.links e.url).length with ⟨hlt, hr⟩ | ⟨hge, hr⟩
    · rw [hr]
      have hnd2 : (allUrls { s with
          inflight := s.inflight.eraseIdx i,
          visited := s.visited ++ [⟨e.url, g.title e.url, s.visited.length⟩],
          pages_indexed := s.pages_indexed + 1,
          links_followed := s.links_followed + (g.links e.url).length }).Nodup := by
        have heq : allUrls { s with
            inflight := s.inflight.eraseIdx i,
            visited := s.visited ++ [⟨e.url, g.title e.url, s.visited.length⟩],
            pages_indexed := s.pages_indexed + 1,
            links_followed := s.links_followed + (g.links e.url).length } =
            (visitedUrls s ++ [e.url]) ++ frontierUrls s ++
              (inflightUrls s).eraseIdx i := by
          simp [allUrls, visitedUrls, frontierUrls, inflightUrls, map_eraseIdx]
        rw [heq]
        exact nodup_move_to_visited _ _ _ i e.url hnd hiu
      refine ⟨?_, ?_, offerAll_nodup p (e.depth + 1) (g.links e.url) _ hnd2⟩
      · rw [offerAll_pages, offerAll_visited]
        simp [hpe]
      · rw [offerAll_pages]
        simpa using hlt
    · rw [hr]
      have hge2 : p.maxPages ≤ s.visited.length := by
        have := hge
        simp at this
        omega
      have hbud : p.maxPages ≤
          ({ s with inflight := s.inflight.eraseIdx i } : CrawlState).visited.length
            + ({ s with inflight := s.inflight.eraseIdx i } : CrawlState).inflight.length := by
        simp
        omega
      rw [offerAll_id_of_budget _ _ _ _ hbud]
      refine ⟨hpe, hpl, ?_⟩
      have heq : allUrls { s with inflight := s.inflight.eraseIdx i } =
          visitedUrls s ++ frontierUrls s ++ (inflightUrls s).eraseIdx i := by
        simp [allUrls, visitedUrls, frontierUrls, inflightUrls, map_eraseIdx]
      rw [heq]
      exact nodup_all_erase _ _ _ i hnd
  · obtain ⟨h1, h2, h3, h4, h5⟩ := completeErr_fields p s e (s.inflight.eraseIdx i)
    refine ⟨by rw [h2, h1]; exact hpe, by rw [h2]; exact hpl, ?_⟩
    have heq : allUrls (completeErr p s e (s.inflight.eraseIdx i)) =
        visitedUrls s ++ frontierUrls s ++ ((inflightUrls s).eraseIdx i) := by
      simp [allUrls, visitedUrls, frontierUrls, inflightUrls, h1, h3, h4,
        map_eraseIdx]
    rw [heq]
    exact nodup_all_erase _ _ _ i hnd

theorem invCore_run (p : CrawlParams) (g : LinkGraph) (cs : List Choice) :
    InvCore p (run p g cs) :=
  foldl_preserve (step p g) (InvCore p)
    (fun s c h => invCore_step p g s c h) cs (initState p) (invCore_init p)

/-! ### Permutation helpers for completed fetches -/

theorem perm_cons_eraseIdx {α : Type} :
    ∀ (l : List α) (i : Nat) (a : α), l[i]? = some a →
      l.Perm (a :: l.eraseIdx i) := by
  intro l
  induction l with
  | nil => intro i a h; simp at h
  | cons b bs ih =>
    intro i a h
    cases i with
    | zero =>
      simp at h
      subst h
      simp [List.eraseIdx]
    | succ j =>
      simp at h
      have hperm := (ih j a h).cons b
      simp [List.eraseIdx]
      exact hperm.trans (List.Perm.swap a b _)

theorem map_url_singleton {l : List FrontierEntry} {a : String}
    (h : l.map (·.url) = [a]) : ∃ e, l = [e] ∧ e.url = a := by
  cases l with
  | nil => simp at h
  | cons x t =>
    simp at h
    obtain ⟨hx, ht⟩ := h
    exact ⟨x, by rw [ht], hx⟩

theorem append_eq_singleton {α : Type} {l1 l2 : List α} {a : α}
    (h : l1 ++ l2 = [a]) : (l1 = [a] ∧ l2 = []) ∨ (l1 = [] ∧ l2 = [a]) := by
  cases l1 with
  | nil => exact Or.inr ⟨rfl, by simpa using h⟩
  | cons x t =>
    simp at h
    exact Or.inl ⟨by rw [h.1, h.2.1], h.2.2⟩

theorem perm_visit (V F I Ie : List String) (a : String)
    (hI : I.Perm (a :: Ie)) :
    (V ++ F ++ I).Perm ((V ++ [a]) ++ F ++ Ie) := by
  simp only [List.append_assoc, List.singleton_append, List.cons_append]
  refine List.Perm.append_left V ?_
  exact (hI.append_left F).trans List.perm_middle

theorem nodup_sub_length {l R : List String} (hn : l.Nodup)
    (hsub : ∀ x ∈ l, x ∈ R) : l.length ≤ R.length :=
  (List.subperm_of_subset hn (fun x hx => hsub x hx)).length_le

theorem inflight_perm (s : CrawlState) (i : Nat) (e : FrontierEntry)
    (hidx : s.inflight[i]? = some e) :
    (inflightUrls s).Perm (e.url :: (inflightUrls s).eraseIdx i) := by
  have hp := (perm_cons_eraseIdx s.inflight i e hidx).map
    (fun q : FrontierEntry => q.url)
  simpa [inflightUrls, map_eraseIdx] using hp

/-! ### The conditional crawl invariant over an all-success gateway -/

/-- The full invariant of a crawl over a graph whose fetches all succeed,
relative to a finite link-closed URL universe `R`: besides the core counters,
every seen URL lies in `R` and is reachable from the root, the depth of every
pending entry is bounded by the visit count, the root is visited or is the
only seen URL, and either the outbound links of every visited page are
accounted among the seen URLs or the page budget threshold has been met. -/
def Inv (p : CrawlParams) (g : LinkGraph) (R : List String)
    (s : CrawlState) : Prop :=
  InvCore p s ∧
  (∀ u ∈ allUrls s, u ∈ R) ∧
  (∀ u ∈ allUrls s, Reachable g p.rootUrl u) ∧
  (∀ e ∈ s.frontier ++ s.inflight, e.depth ≤ s.visited.length) ∧
  (p.rootUrl ∈ visitedUrls s ∨
    (s.visited = [] ∧ frontierUrls s ++ inflightUrls s = [p.rootUrl])) ∧
  ((∀ u ∈ visitedUrls s, ∀ v ∈ g.links u, v ∈ allUrls s) ∨
    p.maxPages ≤ s.visited.length + s.inflight.length) ∧
  s.failed = none

theorem inv_init (p : CrawlParams) (g : LinkGraph) (R : List String)
    (hrootR : p.rootUrl ∈ R) : Inv p g R (initState p) := by
  refine ⟨invCore_init p, ?_, ?_, ?_, ?_, ?_, rfl⟩
  · intro u hu
    simp [initState, allUrls, visitedUrls, frontierUrls, inflightUrls] at hu
    rw [hu]; exact hrootR
  · intro u hu
    simp [initState, allUrls, visitedUrls, frontierUrls, inflightUrls] at hu
    rw [hu]; exact Reachable.root
  · intro e he
    simp [initState] at he
    simp [he, initState]
  · right
    simp [initState, visitedUrls, frontierUrls, inflightUrls]
  · left
    intro u hu
    simp [initState, visitedUrls] at hu

theorem inv_step (p : CrawlParams) (g : LinkGraph) (R : List String)
    (hok : ∀ u, g.fetchOk u = true)
    (hclosed : ∀ u ∈ R, ∀ v ∈ g.links u, v ∈ R)
    (hdepth : R.length ≤ p.maxDepth)
    (hmp : 1 ≤ p.maxPages)
    (s : CrawlState) (c : Choice) (h : Inv p g R s) :
    Inv p g R (step p g s c) := by
  obtain ⟨hcore, hinR, hreach, hdb, hrc, hcl, hfl⟩ := h
  have hcore2 : InvCore p (step p g s c) := invCore_step p g s c hcore
  rcases step_cases p g s c with hs |
    ⟨e, rest, hfn, hpg, hw, hpoll, hs⟩ | ⟨i, e, hfn, hidx, hfok, hs⟩ |
    ⟨i, e, hfn, hidx, hfok, hs⟩
  · rw [hs]
    exact ⟨hcore, hinR, hreach, hdb, hrc, hcl, hfl⟩
  · -- a dispatch moved one frontier entry in flight
    rw [hs] at hcore2 ⊢
    have hpermF : (frontierUrls s).Perm (e.url :: rest.map (·.url)) := by
      have hm := (pollEntry_perm hpoll).map (fun q : FrontierEntry => q.url)
      simpa [frontierUrls] using hm
    have hall : allUrls
        { s with frontier := rest, inflight := s.inflight ++ [e] }
        = visitedUrls s ++ rest.map (·.url) ++ (inflightUrls s ++ [e.url]) := by
      simp [allUrls, visitedUrls, frontierUrls, inflightUrls]
    have hperm : (allUrls s).Perm
        (visitedUrls s ++ rest.map (·.url) ++ (inflightUrls s ++ [e.url])) :=
      perm_dispatch _ _ _ _ _ hpermF
    have hmem : ∀ x, x ∈ allUrls
        { s with frontier := rest, inflight := s.inflight ++ [e] } ↔
        x ∈ allUrls s := by
      intro x
      rw [hall]
      exact (hperm.mem_iff).symm
    have hfmem : ∀ x ∈ rest, x ∈ s.frontier := by
      intro x hx
      exact (pollEntry_perm hpoll).mem_iff.mpr (List.mem_cons_of_mem _ hx)
    have hemem : e ∈ s.frontier :=
      (pollEntry_perm hpoll).mem_iff.mpr (List.mem_cons_self _ _)
    refine ⟨hcore2, ?_, ?_, ?_, ?_, ?_, hfn⟩
    · intro u hu; exact hinR u ((hmem u).mp hu)
    · intro u hu; exact hreach u ((hmem u).mp hu)
    · intro e2 he2
      simp only [List.mem_append] at he2
      simp only at he2 ⊢
      have hgoal : e2.depth ≤ s.visited.length := by
        rcases he2 with h2 | h2 | h2
        · exact hdb e2 (List.mem_append.mpr (Or.inl (hfmem e2 h2)))
        · exact hdb e2 (List.mem_append.mpr (Or.inr h2))
        · have he2e : e2 = e := by simpa using h2
          subst he2e
          exact hdb e2 (List.mem_append.mpr (Or.inl hemem))
      simpa using hgoal
    · rcases hrc with hl | ⟨hv, hsing⟩
      · left; simpa [visitedUrls] using hl
      · rcases append_eq_singleton hsing with ⟨hF, hI⟩ | ⟨hF, hI⟩
        · obtain ⟨f0, hf0, hf0u⟩ := map_url_singleton hF
          have hIempty : s.inflight = [] := List.map_eq_nil_iff.mp hI
          rw [hf0, pollEntry_singleton] at hpoll
          have hfe : f0 = e := congrArg Prod.fst (Option.some.inj hpoll)
          have hre : ([] : List FrontierEntry) = rest :=
            congrArg Prod.snd (Option.some.inj hpoll)
          subst hfe
          subst hre
          right
          refine ⟨by simpa using hv, ?_⟩
          simp [frontierUrls, inflightUrls, hIempty, hf0u]
        · have hfe : s.frontier = [] := List.map_eq_nil_iff.mp hF
          rw [hfe] at hpoll
          simp [pollEntry] at hpoll
    · rcases hcl with hc | hc
      · left
        intro u hu v hv
        have hu2 : u ∈ visitedUrls s := by simpa [visitedUrls] using hu
        exact (hmem v).mpr (hc u hu2 v hv)
      · right
        simp only [List.length_append, List.length_cons]
        simp
        omega
  · -- a successful completion
    have hiu : (inflightUrls s)[i]? = some e.url := by
      simp [inflightUrls, List.getElem?_map, hidx]
    have heperm : (inflightUrls s).Perm
        (e.url :: (inflightUrls s).eraseIdx i) := inflight_perm s i e hidx
    have hIperm : s.inflight.Perm (e :: s.inflight.eraseIdx i) :=
      perm_cons_eraseIdx s.inflight i e hidx
    have heurl_mem : e.url ∈ allUrls s := by
      have hmemI : e.url ∈ inflightUrls s := mem_of_getElemQ _ i _ hiu
      simp only [allUrls, List.mem_append]
      tauto
    have hedepth : e.depth ≤ s.visited.length :=
      hdb e (List.mem_append.mpr (Or.inr (mem_of_getElemQ _ i _ hidx)))
    have hIelen : (inflightUrls s).length =
        ((inflightUrls s).eraseIdx i).length + 1 := by
      have := heperm.length_eq
      simpa using this
    rw [hs] at hcore2 ⊢
    rcases completeOk_cases p g s e (s.inflight.eraseIdx i) with
      ⟨hlt, hr⟩ | ⟨hge, hr⟩
    · rw [hr] at hcore2 ⊢
      have hall1 : allUrls
          { s with inflight := s.inflight.eraseIdx i,
                   visited :=
                     s.visited ++ [⟨e.url, g.title e.url, s.visited.length⟩],
                   pages_indexed := s.pages_indexed + 1,
                   links_followed :=
                     s.links_followed + (g.links e.url).length } =
          (visitedUrls s ++ [e.url]) ++ frontierUrls s ++
            (inflightUrls s).eraseIdx i := by
        simp [allUrls, visitedUrls, frontierUrls, inflightUrls, map_eraseIdx]
      have hperm1 : (allUrls s).Perm
          ((visitedUrls s ++ [e.url]) ++ frontierUrls s ++
            (inflightUrls s).eraseIdx i) :=
        perm_visit _ _ _ _ _ heperm
      have hmem1 : ∀ x, x ∈ allUrls
          { s with inflight := s.inflight.eraseIdx i,
                   visited :=
                     s.visited ++ [⟨e.url, g.title e.url, s.visited.length⟩],
                   pages_indexed := s.pages_indexed + 1,
                   links_followed :=
                     s.links_followed + (g.links e.url).length } ↔
          x ∈ allUrls s := by
        intro x
        rw [hall1]
        exact (hperm1.mem_iff).symm
      have hnd1 : ((visitedUrls s ++ [e.url]) ++ frontierUrls s ++
          (inflightUrls s).eraseIdx i).Nodup :=
        nodup_move_to_visited _ _ _ i e.url hcore.2.2 hiu
      have hndV1 : (visitedUrls s ++ [e.url]).Nodup := (nodup_triple _ _ _ hnd1).1
      have hsubR : ∀ x ∈ visitedUrls s ++ [e.url], x ∈ R := by
        intro x hx
        rcases List.mem_append.mp hx with hxx | hxx
        · refine hinR x ?_
          simp only [allUrls, List.mem_append]
          tauto
        · have : x = e.url := by simpa using hxx
          rw [this]
          exact hinR e.url heurl_mem
      have hlen1 : s.visited.length + 1 ≤ R.length := by
        have := nodup_sub_length hndV1 hsubR
        simp [visitedUrls] at this
        omega
      have hdmax : e.depth + 1 ≤ p.maxDepth := by omega
      refine ⟨hcore2, ?_, ?_, ?_, ?_, ?_, ?_⟩
      · refine offerAll_urls_pred p (e.depth + 1) (g.links e.url) (· ∈ R)
          (hclosed e.url (hinR e.url heurl_mem)) _ ?_
        intro x hx
        exact hinR x ((hmem1 x).mp hx)
      · refine offerAll_urls_pred p (e.depth + 1) (g.links e.url)
          (Reachable g p.rootUrl)
          (fun v hv => Reachable.step (hreach e.url heurl_mem) hv) _ ?_
        intro x hx
        exact hreach x ((hmem1 x).mp hx)
      · obtain ⟨ex, hex, hexmem⟩ := offerAll_frontier_append p (e.depth + 1)
          (g.links e.url)
          { s with inflight := s.inflight.eraseIdx i,
                   visited :=
                     s.visited ++ [⟨e.url, g.title e.url, s.visited.length⟩],
                   pages_indexed := s.pages_indexed + 1,
                   links_followed :=
                     s.links_followed + (g.links e.url).length }
        intro e2 he2
        rw [List.mem_append, hex, offerAll_inflight] at he2
        rw [offerAll_visited]
        simp only [List.length_append, List.length_cons, List.length_nil]
        have hbound : e2.depth ≤ s.visited.length + 1 := by
          rcases he2 with h2 | h2
          · rcases List.mem_append.mp h2 with h3 | h3
            · have : e2.depth ≤ s.visited.length := by
                refine hdb e2 (List.mem_append.mpr (Or.inl ?_))
                simpa using h3
              omega
            · have := (hexmem e2 h3).2
              omega
          · have h4 : e2 ∈ s.inflight := by
              have h5 : e2 ∈ s.inflight.eraseIdx i := by simpa using h2
              exact (List.eraseIdx_sublist s.inflight i).subset h5
            have : e2.depth ≤ s.visited.length :=
              hdb e2 (List.mem_append.mpr (Or.inr h4))
            omega
        simpa using hbound
      · left
        rw [visitedUrls_offerAll]
        have hroot2 : p.rootUrl ∈ visitedUrls s ++ [e.url] := by
          rcases hrc with hl | ⟨hv, hsing⟩
          · exact List.mem_append.mpr (Or.inl hl)
          · have heq : e.url = p.rootUrl := by
              have hm : e.url ∈ frontierUrls s ++ inflightUrls s :=
                List.mem_append.mpr (Or.inr (mem_of_getElemQ _ i _ hiu))
              rw [hsing] at hm
              simpa using hm
            rw [heq]
            simp
        simpa [visitedUrls] using hroot2
      · by_cases hbud1 : p.maxPages ≤ s.visited.length + 1 +
            ((inflightUrls s).eraseIdx i).length
        · right
          rw [offerAll_visited, offerAll_inflight]
          have hlen2 : (s.inflight.eraseIdx i).length =
              ((inflightUrls s).eraseIdx i).length := by
            simp only [inflightUrls]
            rw [← map_eraseIdx, List.length_map]
          simp only [List.length_append, List.length_cons, List.length_nil]
          simp
          omega
        · rcases hcl with hc | hc
          · left
            intro u hu v hv
            rw [visitedUrls_offerAll] at hu
            have hu' : u ∈ visitedUrls s ++ [e.url] := by
              simpa [visitedUrls] using hu
            rcases List.mem_append.mp hu' with huV | huE
            · exact offerAll_mem_mono p _ _ _ v ((hmem1 v).mpr (hc u huV v hv))
            · have hueq : u = e.url := by simpa using huE
              subst hueq
              rcases offerAll_covers p (e.depth + 1) (g.links e.url) hdmax _
                  v hv with hvin | hvbud
              · exact hvin
              · exfalso
                apply hbud1
                have hlen2 : (s.inflight.eraseIdx i).length =
                    ((inflightUrls s).eraseIdx i).length := by
                  simp only [inflightUrls]
                  rw [← map_eraseIdx, List.length_map]
                simp at hvbud
                omega
          · exfalso
            apply hbud1
            have hIlen : s.inflight.length =
                ((inflightUrls s).eraseIdx i).length + 1 := by
              have : (inflightUrls s).length = s.inflight.length := by
                simp [inflightUrls]
              omega
            omega
      · rw [offerAll_failed]
        simpa using hfn
    · -- the budget was already reached: the page is dropped
      rw [hr] at hcore2 ⊢
      have hge2 : p.maxPages ≤ s.pages_indexed := hge
      have hgev : p.maxPages ≤ s.visited.length := by
        have := hcore.1
        omega
      have hbud : p.maxPages ≤
          ({ s with inflight := s.inflight.eraseIdx i } : CrawlState).visited.length
            + ({ s with inflight := s.inflight.eraseIdx i } : CrawlState).inflight.length := by
        simp
        omega
      rw [offerAll_id_of_budget _ _ _ _ hbud] at hcore2 ⊢
      have hmemMid : ∀ x ∈ allUrls { s with inflight := s.inflight.eraseIdx i },
          x ∈ allUrls s := by
        intro x hx
        have hx2 : x ∈ visitedUrls s ++ frontierUrls s ++
            (inflightUrls s).eraseIdx i := by
          simpa [allUrls, visitedUrls, frontierUrls, inflightUrls,
            map_eraseIdx] using hx
        simp only [allUrls, List.mem_append] at hx2 ⊢
        rcases hx2 with h2 | h2
        · tauto
        · have : x ∈ inflightUrls s := by
            refine heperm.mem_iff.mpr ?_
            exact List.mem_cons_of_mem _ (by simpa using h2)
          tauto
      refine ⟨hcore2, ?_, ?_, ?_, ?_, ?_, hfn⟩
      · intro u hu; exact hinR u (hmemMid u hu)
      · intro u hu; exact hreach u (hmemMid u hu)
      · intro e2 he2
        have he2' : e2 ∈ s.frontier ++ s.inflight := by
          simp only [List.mem_append] at he2 ⊢
          rcases he2 with h2 | h2
          · exact Or.inl (by simpa using h2)
          · right
            have h5 : e2 ∈ s.inflight.eraseIdx i := by simpa using h2
            exact (List.eraseIdx_sublist s.inflight i).subset h5
        have := hdb e2 he2'
        simpa using this
      · rcases hrc with hl | ⟨hv, hsing⟩
        · left; simpa [visitedUrls] using hl
        · exfalso
          have : s.visited.length = 0 := by rw [hv]; rfl
          omega
      · right
        simp
        omega
  · -- a failed completion cannot happen when every fetch succeeds
    rw [hok e.url] at hfok
    simp at hfok

/-! ### Builder success characterisation -/

theorem parsePages_ok_forall :
    ∀ (vs : List VisitedPage) items, parsePages vs = .ok items →
      ∀ p ∈ vs, (parseUrl p.url).isSome = true := by
  intro vs
  induction vs with
  | nil => intro items _ p hp; simp at hp
  | cons q qs ih =>
    intro items h p hp
    unfold parsePages at h
    cases hq : parseUrl q.url with
    | none => rw [hq] at h; simp at h
    | some hs =>
      rw [hq] at h
      cases hr : parsePages qs with
      | error e => rw [hr] at h; simp at h
      | ok rest =>
        rw [hr] at h
        rcases List.mem_cons.mp hp with hpq | hpm
        · subst hpq; simp [hq]
        · exact ih rest hr p hpm

theorem parsePages_ok_of_forall :
    ∀ (vs : List VisitedPage), (∀ p ∈ vs, (parseUrl p.url).isSome = true) →
      ∃ items, parsePages vs = .ok items := by
  intro vs
  induction vs with
  | nil => intro _; exact ⟨[], rfl⟩
  | cons q qs ih =>
    intro h
    have hq : (parseUrl q.url).isSome = true := h q (List.mem_cons_self q qs)
    cases hqq : parseUrl q.url with
    | none => rw [hqq] at hq; simp at hq
    | some hs =>
      obtain ⟨rest, hrest⟩ := ih (fun p hp => h p (List.mem_cons_of_mem _ hp))
      exact ⟨(hs, q) :: rest, by simp [parsePages, hqq, hrest]⟩

theorem parsePages_length :
    ∀ (vs : List VisitedPage) items, parsePages vs = .ok items →
      items.length = vs.length := by
  intro vs
  induction vs with
  | nil => intro items h; simp [parsePages] at h; simp [← h]
  | cons q qs ih =>
    intro items h
    unfold parsePages at h
    cases hq : parseUrl q.url with
    | none => rw [hq] at h; simp at h
    | some hs =>
      rw [hq] at h
      cases hr : parsePages qs with
      | error e => rw [hr] at h; simp at h
      | ok rest =>
        rw [hr] at h
        simp at h
        simp [← h, ih rest hr]

/-! ### Run-level consequences of the invariants -/

theorem inv_run (p : CrawlParams) (g : LinkGraph) (R : List String)
    (hok : ∀ u, g.fetchOk u = true)
    (hrootR : p.rootUrl ∈ R)
    (hclosed : ∀ u ∈ R, ∀ v ∈ g.links u, v ∈ R)
    (hdepth : R.length ≤ p.maxDepth)
    (hmp : 1 ≤ p.maxPages)
    (cs : List Choice) : Inv p g R (run p g cs) :=
  foldl_preserve (step p g) (Inv p g R)
    (fun s c h => inv_step p g R hok hclosed hdepth hmp s c h) cs
    (initState p) (inv_init p g R hrootR)

theorem length_visitedUrls (s : CrawlState) :
    (visitedUrls s).length = s.visited.length := by
  simp [visitedUrls]

/-- At a completed crawl, either the page budget was hit exactly, or every
reachable URL has been visited. -/
theorem run_final_cases (p : CrawlParams) (g : LinkGraph) (R : List String)
    (hok : ∀ u, g.fetchOk u = true)
    (hrootR : p.rootUrl ∈ R)
    (hclosed : ∀ u ∈ R, ∀ v ∈ g.links u, v ∈ R)
    (hdepth : R.length ≤ p.maxDepth)
    (hmp : 1 ≤ p.maxPages)
    (cs : List Choice)
    (hfin : crawlCompleted p (run p g cs)) :
    (run p g cs).pages_indexed = p.maxPages ∨
      (∀ u, Reachable g p.rootUrl u → u ∈ visitedUrls (run p g cs)) := by
  obtain ⟨⟨hpe, hpl, hnd⟩, hinR, hreach, hdb, hrc, hcl, hfl⟩ :=
    inv_run p g R hok hrootR hclosed hdepth hmp cs
  obtain ⟨hfl2, hineq, hfr⟩ := hfin
  by_cases hpm : (run p g cs).pages_indexed = p.maxPages
  · exact Or.inl hpm
  right
  have hfr2 : (run p g cs).frontier = [] := by
    rcases hfr with h | h
    · exact h
    · exact absurd h hpm
  have hClen : (run p g cs).inflight.length = 0 := by rw [hineq]; rfl
  have hCL : ∀ u ∈ visitedUrls (run p g cs), ∀ v ∈ g.links u,
      v ∈ allUrls (run p g cs) := by
    rcases hcl with h | h
    · exact h
    · exfalso
      have hlt : (run p g cs).pages_indexed < p.maxPages :=
        lt_of_le_of_ne hpl hpm
      omega
  have hallv : allUrls (run p g cs) = visitedUrls (run p g cs) := by
    simp [allUrls, frontierUrls, inflightUrls, hfr2, hineq]
  have hrootv : p.rootUrl ∈ visitedUrls (run p g cs) := by
    rcases hrc with h | ⟨hv, hsing⟩
    · exact h
    · exfalso
      have h0 : ([] : List String) = [p.rootUrl] := by
        rw [← hsing]
        simp [frontierUrls, inflightUrls, hfr2, hineq]
      simp at h0
  intro u hre
  induction hre with
  | root => exact hrootv
  | step ha hb ih =>
    have hm := hCL _ ih _ hb
    rwa [hallv] at hm

/-- At a completed crawl, the visited URLs are exactly the reachable ones,
provided the budget cannot truncate (`R.length < max_pages`). -/
theorem run_visited_iff_reachable (p : CrawlParams) (g : LinkGraph)
    (R : List String)
    (hok : ∀ u, g.fetchOk u = true)
    (hrootR : p.rootUrl ∈ R)
    (hclosed : ∀ u ∈ R, ∀ v ∈ g.links u, v ∈ R)
    (hdepth : R.length ≤ p.maxDepth)
    (hbig : R.length < p.maxPages)
    (cs : List Choice)
    (hfin : crawlCompleted p (run p g cs)) :
    ∀ u, u ∈ visitedUrls (run p g cs) ↔ Reachable g p.rootUrl u := by
  have hRpos : 0 < R.length :=
    List.length_pos.mpr (List.ne_nil_of_mem hrootR)
  have hmp : 1 ≤ p.maxPages := by omega
  obtain ⟨⟨hpe, hpl, hnd⟩, hinR, hreach, hdb, hrc, hcl, hfl⟩ :=
    inv_run p g R hok hrootR hclosed hdepth hmp cs
  have hndV : (visitedUrls (run p g cs)).Nodup := (nodup_triple _ _ _ hnd).1
  have hsubR : ∀ x ∈ visitedUrls (run p g cs), x ∈ R := by
    intro x hx
    refine hinR x ?_
    simp only [allUrls, List.mem_append]
    tauto
  have hvlen2 : (run p g cs).visited.length ≤ R.length := by
    have := nodup_sub_length hndV hsubR
    rwa [length_visitedUrls] at this
  have hnotmax : (run p g cs).pages_indexed ≠ p.maxPages := by omega
  rcases run_final_cases p g R hok hrootR hclosed hdepth hmp cs hfin with
    h | h
  · exact absurd h hnotmax
  intro u
  constructor
  · intro hu
    refine hreach u ?_
    simp only [allUrls, List.mem_append]
    tauto
  · exact h u

/-- At a completed crawl whose reachable set meets or exceeds the budget,
the budget is hit exactly. -/
theorem run_budget_exact (p : CrawlParams) (g : LinkGraph)
    (R L : List String)
    (hok : ∀ u, g.fetchOk u = true)
    (hrootR : p.rootUrl ∈ R)
    (hclosed : ∀ u ∈ R, ∀ v ∈ g.links u, v ∈ R)
    (hdepth : R.length ≤ p.maxDepth)
    (hmp : 1 ≤ p.maxPages)
    (hLnd : L.Nodup)
    (hLreach : ∀ u ∈ L, Reachable g p.rootUrl u)
    (hLlen : p.maxPages ≤ L.length)
    (cs : List Choice)
    (hfin : crawlCompleted p (run p g cs)) :
    (run p g cs).pages_indexed = p.maxPages := by
  obtain ⟨⟨hpe, hpl, hnd⟩, hinR, hreach, hdb, hrc, hcl, hfl⟩ :=
    inv_run p g R hok hrootR hclosed hdepth hmp cs
  rcases run_final_cases p g R hok hrootR hclosed hdepth hmp cs hfin with
    h | h
  · exact h
  · have hLsub : ∀ x ∈ L, x ∈ visitedUrls (run p g cs) :=
      fun x hx => h x (hLreach x hx)
    have hlen := nodup_sub_length hLnd hLsub
    rw [length_visitedUrls] at hlen
    omega

/-! ### The crawl with a failing root fetch -/

/-- Invariant of a crawl whose root fetch fails: nothing is ever visited,
and the task is either still waiting on the root or has failed with the
root-fetch error message. -/
def InvFail (p : CrawlParams) (s : CrawlState) : Prop :=
  s.visited = [] ∧ s.pages_indexed = 0 ∧
  ((frontierUrls s ++ inflightUrls s = [p.rootUrl] ∧ s.failed = none ∧
      s.errors = 0) ∨
    (s.frontier = [] ∧ s.inflight = [] ∧
      s.failed = some ("Failed to fetch root URL: " ++ p.rootUrl) ∧
      s.errors = 1))

theorem invFail_step (p : CrawlParams) (g : LinkGraph)
    (hroot : g.fetchOk p.rootUrl = false) (s : CrawlState) (c : Choice)
    (h : InvFail p s) : InvFail p (step p g s c) := by
  obtain ⟨hv, hp, hdisj⟩ := h
  rcases step_cases p g s c with hs |
    ⟨e, rest, hfn, hpg, hw, hpoll, hs⟩ | ⟨i, e, hfn, hidx, hfok, hs⟩ |
    ⟨i, e, hfn, hidx, hfok, hs⟩ <;> rw [hs]
  · exact ⟨hv, hp, hdisj⟩
  · rcases hdisj with ⟨hsing, hfl0, he0⟩ | ⟨hfr, hifl, hfl, he⟩
    · refine ⟨hv, hp, Or.inl ⟨?_, hfl0, he0⟩⟩
      rcases append_eq_singleton hsing with ⟨hF, hI⟩ | ⟨hF, hI⟩
      · obtain ⟨f0, hf0, hf0u⟩ := map_url_singleton hF
        have hIempty : s.inflight = [] := List.map_eq_nil_iff.mp hI
        rw [hf0, pollEntry_singleton] at hpoll
        have hfe : f0 = e := congrArg Prod.fst (Option.some.inj hpoll)
        have hre : ([] : List FrontierEntry) = rest :=
          congrArg Prod.snd (Option.some.inj hpoll)
        subst hfe
        subst hre
        simp [frontierUrls, inflightUrls, hIempty, hf0u]
      · have hfe : s.frontier = [] := List.map_eq_nil_iff.mp hF
        rw [hfe] at hpoll
        simp [pollEntry] at hpoll
    · exact absurd hfn (by rw [hfl]; simp)
  · rcases hdisj with ⟨hsing, hfl0, he0⟩ | ⟨hfr, hifl, hfl, he⟩
    · exfalso
      have hmemI : e.url ∈ inflightUrls s := by
        have : (inflightUrls s)[i]? = some e.url := by
          simp [inflightUrls, List.getElem?_map, hidx]
        exact mem_of_getElemQ _ i _ this
      have : e.url = p.rootUrl := by
        have hm : e.url ∈ frontierUrls s ++ inflightUrls s :=
          List.mem_append.mpr (Or.inr hmemI)
        rw [hsing] at hm
        simpa using hm
      rw [this, hroot] at hfok
      simp at hfok
    · rw [hifl] at hidx
      simp at hidx
  · rcases hdisj with ⟨hsing, hfl0, he0⟩ | ⟨hfr, hifl, hfl, he⟩
    · have hmemI : e.url ∈ inflightUrls s := by
        have : (inflightUrls s)[i]? = some e.url := by
          simp [inflightUrls, List.getElem?_map, hidx]
        exact mem_of_getElemQ _ i _ this
      have heurl : e.url = p.rootUrl := by
        have hm : e.url ∈ frontierUrls s ++ inflightUrls s :=
          List.mem_append.mpr (Or.inr hmemI)
        rw [hsing] at hm
        simpa using hm
      rcases append_eq_singleton hsing with ⟨hF, hI⟩ | ⟨hF, hI⟩
      · exfalso
        have : s.inflight = [] := List.map_eq_nil_iff.mp hI
        rw [this] at hidx
        simp at hidx
      · obtain ⟨e0, he0eq, he0u⟩ := map_url_singleton hI
        have hFe : s.frontier = [] := List.map_eq_nil_iff.mp hF
        have hi0 : i = 0 ∧ e = e0 := by
          rw [he0eq] at hidx
          cases i with
          | zero =>
            simp at hidx
            exact ⟨rfl, hidx.symm⟩
          | succ j => simp at hidx
        obtain ⟨hi0', hee0⟩ := hi0
        subst hi0'
        subst hee0
        unfold completeErr
        rw [if_pos heurl]
        refine ⟨hv, hp, Or.inr ⟨?_, ?_, ?_, ?_⟩⟩
        · simp [finishFailed, recordError, hFe]
        · simp [finishFailed, recordError, he0eq, List.eraseIdx]
        · simp [finishFailed, recordError, heurl]
        · simp [finishFailed, recordError, he0]
    · exact absurd hfn (by rw [hfl]; simp)

theorem invFail_run (p : CrawlParams) (g : LinkGraph)
    (hroot : g.fetchOk p.rootUrl = false) (cs : List Choice) :
    InvFail p (run p g cs) := by
  refine foldl_preserve (step p g) (InvFail p)
    (fun s c h => invFail_step p g hroot s c h) cs (initState p) ?_
  refine ⟨rfl, rfl, Or.inl ⟨?_, rfl, rfl⟩⟩
  simp [initState, frontierUrls, inflightUrls]

/-! ### The crawl with depth limit zero -/

/-- Invariant of a crawl with `max_depth = 0`: the root URL is the only URL
that is ever seen, and the counters reflect at most the single root visit,
with `links_followed` counting the links discovered on the root page. -/
def InvD0 (p : CrawlParams) (g : LinkGraph) (s : CrawlState) : Prop :=
  (∀ u ∈ allUrls s, u = p.rootUrl) ∧
  ((s.visited = [] ∧ s.pages_indexed = 0 ∧ s.links_followed = 0) ∨
    (visitedUrls s = [p.rootUrl] ∧ s.pages_indexed = 1 ∧
      s.links_followed = (g.links p.rootUrl).length))

theorem mem_allUrls_of_triple {s : CrawlState} {i : Nat} {u : String}
    (hu : u ∈ visitedUrls s ++ frontierUrls s ++
      (inflightUrls s).eraseIdx i) : u ∈ allUrls s := by
  rcases List.mem_append.mp hu with h2 | h2
  · simp only [allUrls, List.mem_append] at h2 ⊢
    tauto
  · have h5 : u ∈ inflightUrls s := (List.eraseIdx_sublist _ i).subset h2
    simp only [allUrls, List.mem_append]
    tauto

theorem mem_allUrls_of_move {s : CrawlState} {i : Nat} {a u : String}
    (hu : u ∈ (visitedUrls s ++ [a]) ++ frontierUrls s ++
      (inflightUrls s).eraseIdx i) : u ∈ allUrls s ∨ u = a := by
  rcases List.mem_append.mp hu with h2 | h2
  · rcases List.mem_append.mp h2 with h3 | h3
    · rcases List.mem_append.mp h3 with h4 | h4
      · left; simp only [allUrls, List.mem_append]; tauto
      · right; simpa using h4
    · left; simp only [allUrls, List.mem_append]; tauto
  · have h5 : u ∈ inflightUrls s := (List.eraseIdx_sublist _ i).subset h2
    left; simp only [allUrls, List.mem_append]; tauto

theorem invD0_step (p : CrawlParams) (g : LinkGraph)
    (hd0 : p.maxDepth = 0) (s : CrawlState) (c : Choice)
    (hcore : InvCore p s) (h : InvD0 p g s) : InvD0 p g (step p g s c) := by
  obtain ⟨hall, hdisj⟩ := h
  rcases step_cases p g s c with hs |
    ⟨e, rest, hfn, hpg, hw, hpoll, hs⟩ | ⟨i, e, hfn, hidx, hfok, hs⟩ |
    ⟨i, e, hfn, hidx, hfok, hs⟩ <;> rw [hs]
  · exact ⟨hall, hdisj⟩
  · have hpermF : (frontierUrls s).Perm (e.url :: rest.map (·.url)) := by
      have hm := (pollEntry_perm hpoll).map (fun q : FrontierEntry => q.url)
      simpa [frontierUrls] using hm
    have hall2 : allUrls
        { s with frontier := rest, inflight := s.inflight ++ [e] }
        = visitedUrls s ++ rest.map (·.url) ++ (inflightUrls s ++ [e.url]) := by
      simp [allUrls, visitedUrls, frontierUrls, inflightUrls]
    have hperm : (allUrls s).Perm
        (visitedUrls s ++ rest.map (·.url) ++ (inflightUrls s ++ [e.url])) :=
      perm_dispatch _ _ _ _ _ hpermF
    refine ⟨?_, ?_⟩
    · intro u hu
      rw [hall2] at hu
      exact hall u (hperm.mem_iff.mpr hu)
    · rcases hdisj with hL | hR
      · exact Or.inl ⟨hL.1, hL.2.1, hL.2.2⟩
      · exact Or.inr ⟨by simpa [visitedUrls] using hR.1, hR.2.1, hR.2.2⟩
  · have hiu : (inflightUrls s)[i]? = some e.url := by
      simp [inflightUrls, List.getElem?_map, hidx]
    have heurlmem : e.url ∈ allUrls s := by
      have hmemI : e.url ∈ inflightUrls s := mem_of_getElemQ _ i _ hiu
      simp only [allUrls, List.mem_append]
      tauto
    have heroot : e.url = p.rootUrl := hall e.url heurlmem
    have hd1 : p.maxDepth < e.depth + 1 := by rw [hd0]; omega
    rcases completeOk_cases p g s e (s.inflight.eraseIdx i) with
      ⟨hlt, hr⟩ | ⟨hge, hr⟩ <;> rw [hr, offerAll_id_of_depth _ _ _ _ hd1]
    · refine ⟨?_, ?_⟩
      · intro u hu
        have hu2 : u ∈ (visitedUrls s ++ [e.url]) ++ frontierUrls s ++
            (inflightUrls s).eraseIdx i := by
          simpa [allUrls, visitedUrls, frontierUrls, inflightUrls,
            map_eraseIdx] using hu
        rcases mem_allUrls_of_move hu2 with hm | hm
        · exact hall u hm
        · rw [hm]; exact heroot
      · rcases hdisj with ⟨hL1, hL2, hL3⟩ | ⟨hR1, hR2, hR3⟩
        · right
          refine ⟨?_, ?_, ?_⟩
          · simp [visitedUrls, hL1, heroot]
          · simp [hL2]
          · simp [hL3, heroot]
        · exfalso
          obtain ⟨hndV, hndF, hndI, hVF, hVI, hFI⟩ :=
            nodup_triple _ _ _ hcore.2.2
          have hrootV : p.rootUrl ∈ visitedUrls s := by rw [hR1]; simp
          have hrootI : p.rootUrl ∈ inflightUrls s := by
            rw [← heroot]
            exact mem_of_getElemQ _ i _ hiu
          exact hVI _ hrootV hrootI
    · refine ⟨?_, ?_⟩
      · intro u hu
        have hu2 : u ∈ visitedUrls s ++ frontierUrls s ++
            (inflightUrls s).eraseIdx i := by
          simpa [allUrls, visitedUrls, frontierUrls, inflightUrls,
            map_eraseIdx] using hu
        exact hall u (mem_allUrls_of_triple hu2)
      · rcases hdisj with ⟨hL1, hL2, hL3⟩ | ⟨hR1, hR2, hR3⟩
        · exact Or.inl ⟨hL1, hL2, hL3⟩
        · exact Or.inr ⟨by simpa [visitedUrls] using hR1, hR2, hR3⟩
  · obtain ⟨h1, h2, h3, h4, h5⟩ := completeErr_fields p s e
      (s.inflight.eraseIdx i)
    refine ⟨?_, ?_⟩
    · intro u hu
      have hu2 : u ∈ visitedUrls s ++ frontierUrls s ++
          (inflightUrls s).eraseIdx i := by
        simpa [allUrls, visitedUrls, frontierUrls, inflightUrls, h1, h3, h4,
          map_eraseIdx] using hu
      exact hall u (mem_allUrls_of_triple hu2)
    · rcases hdisj with ⟨hL1, hL2, hL3⟩ | ⟨hR1, hR2, hR3⟩
      · exact Or.inl ⟨by rw [h1]; exact hL1, by rw [h2]; exact hL2,
          by rw [h5]; exact hL3⟩
      · refine Or.inr ⟨?_, by rw [h2]; exact hR2, by rw [h5]; exact hR3⟩
        have : visitedUrls (completeErr p s e (s.inflight.eraseIdx i)) =
            visitedUrls s := by
          simp [visitedUrls, h1]
        rw [this]
        exact hR1

theorem invD0_run (p : CrawlParams) (g : LinkGraph)
    (hd0 : p.maxDepth = 0) (cs : List Choice) :
    InvD0 p g (run p g cs) := by
  have hjoint : InvCore p (run p g cs) ∧ InvD0 p g (run p g cs) := by
    refine foldl_preserve (step p g)
      (fun s => InvCore p s ∧ InvD0 p g s)
      (fun s c hc => ⟨invCore_step p g s c hc.1,
        invD0_step p g hd0 s c hc.1 hc.2⟩) cs (initState p) ?_
    refine ⟨invCore_init p, ?_, Or.inl ⟨rfl, rfl, rfl⟩⟩
    intro u hu
    simpa [initState, allUrls, visitedUrls, frontierUrls, inflightUrls]
      using hu
  exact hjoint.2

/-! ### Structural invariants of built documentation maps -/

instance : DecidableEq (Except MapBuildError DocMapNode) := fun a b =>
  match a, b with
  | .ok x, .ok y =>
    decidable_of_iff (x = y) ⟨fun h => by rw [h], fun h => Except.ok.inj h⟩
  | .error x, .error y =>
    decidable_of_iff (x = y) ⟨fun h => by rw [h], fun h => Except.error.inj h⟩
  | .ok _, .error _ => isFalse (fun h => by cases h)
  | .error _, .ok _ => isFalse (fun h => by cases h)

/-- `Subnode m n` means `m` occurs in the tree rooted at `n`. -/
inductive Subnode : DocMapNode → DocMapNode → Prop where
  | refl (n : DocMapNode) : Subnode n n
  | child {m c n : DocMapNode} : c ∈ n.children → Subnode m c → Subnode m n

/-- Every node of the tree is a leaf carrying a URL or has at least one
child: groupings are never childless and childless nodes carry a URL. -/
inductive AllGood : DocMapNode → Prop where
  | intro {n : DocMapNode} :
      (n.url.isSome = true ∨ n.children ≠ []) →
      (∀ c ∈ n.children, AllGood c) → AllGood n

theorem AllGood.d {n : DocMapNode} (h : AllGood n) :
    n.url.isSome = true ∨ n.children ≠ [] := by
  cases h with
  | intro hd _ => exact hd

theorem AllGood.children_good {n : DocMapNode} (h : AllGood n) :
    ∀ c ∈ n.children, AllGood c := by
  cases h with
  | intro _ hc => exact hc

theorem leaf_allGood (idStr s u t : String) : AllGood (mkLeaf idStr s u t) :=
  AllGood.intro (Or.inl rfl)
    (by intro c hc; simp [mkLeaf, DocMapNode.children] at hc)

theorem splitFirst_eq (p : DocMapNode → Bool) :
    ∀ (l a : List DocMapNode) (c : DocMapNode) (b : List DocMapNode),
      splitFirst p l = some (a, c, b) → l = a ++ c :: b := by
  intro l
  induction l with
  | nil => intro a c b h; simp [splitFirst] at h
  | cons x t ih =>
    intro a c b h
    unfold splitFirst at h
    by_cases hp : p x
    · rw [if_pos hp] at h
      have h' := Option.some.inj h
      have ha : a = [] := (congrArg (fun q => q.1) h').symm
      have hc : c = x := (congrArg (fun q => q.2.1) h').symm
      have hb : b = t := (congrArg (fun q => q.2.2) h').symm
      subst ha; subst hc; subst hb
      rfl
    · rw [if_neg hp] at h
      cases hs : splitFirst p t with
      | none => rw [hs] at h; simp at h
      | some q =>
        obtain ⟨q1, qc, qb⟩ := q
        rw [hs] at h
        simp at h
        have ha : a = x :: q1 := h.1.symm
        have hc2 : c = qc := h.2.1.symm
        have hb : b = qb := h.2.2.symm
        subst ha; subst hc2; subst hb
        rw [ih q1 c b hs]
        rfl

theorem insertSegs_children_nil (u t : String) (n : DocMapNode) :
    (insertSegs [] u t n).children = n.children := by
  cases n
  rfl

theorem insertSegs_url_nil (u t : String) (n : DocMapNode) :
    (insertSegs [] u t n).url = some u := by
  cases n
  rfl

theorem insertSegs_children_ne (s : String) (rest : List String)
    (u t : String) (n : DocMapNode) :
    (insertSegs (s :: rest) u t n).children ≠ [] := by
  cases n with
  | mk i nm ur cs =>
    cases rest with
    | nil =>
      unfold insertSegs
      cases hsp : splitFirst (fun c => c.name = s && c.url.isNone) cs with
      | none => simp [DocMapNode.children]
      | some q =>
        obtain ⟨a, g, b⟩ := q
        cases g
        simp [DocMapNode.children]
    | cons s2 rest2 =>
      unfold insertSegs
      cases hsp : splitFirst (fun c => c.name = s && c.url.isNone) cs with
      | none =>
        cases hsp2 : splitFirst (fun c => c.name = s && c.url.isSome) cs with
        | none => simp [DocMapNode.children]
        | some q =>
          obtain ⟨a, g, b⟩ := q
          simp [DocMapNode.children]
      | some q =>
        obtain ⟨a, g, b⟩ := q
        simp [DocMapNode.children]

theorem insertSegs_url_cons (s : String) (rest : List String)
    (u t : String) (n : DocMapNode) :
    (insertSegs (s :: rest) u t n).url = n.url := by
  cases n with
  | mk i nm ur cs =>
    cases rest with
    | nil =>
      unfold insertSegs
      cases hsp : splitFirst (fun c => c.name = s && c.url.isNone) cs with
      | none => rfl
      | some q =>
        obtain ⟨a, g, b⟩ := q
        cases g
        rfl
    | cons s2 rest2 =>
      unfold insertSegs
      cases hsp : splitFirst (fun c => c.name = s && c.url.isNone) cs with
      | none =>
        cases hsp2 : splitFirst (fun c => c.name = s && c.url.isSome) cs with
        | none => rfl
        | some q => obtain ⟨a, g, b⟩ := q; rfl
      | some q => obtain ⟨a, g, b⟩ := q; rfl

theorem insertSegs_good :
    ∀ (segs : List String) (u t : String) (n : DocMapNode),
      (∀ c ∈ n.children, AllGood c) →
      (∀ c ∈ (insertSegs segs u t n).children, AllGood c) := by
  intro segs
  induction segs with
  | nil =>
    intro u t n h c hc
    rw [insertSegs_children_nil] at hc
    exact h c hc
  | cons s rest ih =>
    intro u t n h
    cases n with
    | mk i nm ur cs =>
    cases rest with
    | nil =>
      unfold insertSegs
      cases hsp : splitFirst (fun c => c.name = s && c.url.isNone) cs with
      | none =>
        intro c hc
        simp only [DocMapNode.children] at hc
        rcases List.mem_append.mp hc with hm | hm
        · exact h c hm
        · have hcl : c = mkLeaf (i ++ "/" ++ s) s u t := by simpa using hm
          rw [hcl]
          exact leaf_allGood _ _ _ _
      | some q =>
        obtain ⟨a, g, b⟩ := q
        cases g with
        | mk ci cn cu cc =>
        have hsplit := splitFirst_eq _ cs a _ b hsp
        intro c hc
        simp only [DocMapNode.children] at hc
        rcases List.mem_append.mp hc with hm | hm
        · rcases List.mem_append.mp hm with h2 | h2
          · apply h
            rw [hsplit]
            exact List.mem_append.mpr (Or.inl h2)
          · have hcg : c = DocMapNode.mk ci cn cu
                (cc ++ [mkLeaf (ci ++ "/" ++ s) s u t]) := by simpa using h2
            rw [hcg]
            have hgood : AllGood (.mk ci cn cu cc) := by
              apply h
              rw [hsplit]
              exact List.mem_append.mpr (Or.inr (List.mem_cons_self _ _))
            refine AllGood.intro (Or.inr (by simp [DocMapNode.children])) ?_
            intro c2 hc2
            simp only [DocMapNode.children] at hc2
            rcases List.mem_append.mp hc2 with h3 | h3
            · exact hgood.children_good c2 h3
            · have hcl : c2 = mkLeaf (ci ++ "/" ++ s) s u t := by
                simpa using h3
              rw [hcl]
              exact leaf_allGood _ _ _ _
        · apply h
          rw [hsplit]
          exact List.mem_append.mpr (Or.inr (List.mem_cons_of_mem _ hm))
    | cons s2 rest2 =>
      unfold insertSegs
      cases hsp : splitFirst (fun c => c.name = s && c.url.isNone) cs with
      | some q =>
        obtain ⟨a, g, b⟩ := q
        have hsplit := splitFirst_eq _ cs a g b hsp
        intro c hc
        simp only [DocMapNode.children] at hc
        rcases List.mem_append.mp hc with hm | hm
        · rcases List.mem_append.mp hm with h2 | h2
          · apply h
            rw [hsplit]
            exact List.mem_append.mpr (Or.inl h2)
          · have hcg : c = insertSegs (s2 :: rest2) u t g := by simpa using h2
            rw [hcg]
            have hgood : AllGood g := by
              apply h
              rw [hsplit]
              exact List.mem_append.mpr (Or.inr (List.mem_cons_self _ _))
            exact AllGood.intro
              (Or.inr (insertSegs_children_ne _ _ _ _ _))
              (ih u t g hgood.children_good)
        · apply h
          rw [hsplit]
          exact List.mem_append.mpr (Or.inr (List.mem_cons_of_mem _ hm))
      | none =>
        cases hsp2 : splitFirst (fun c => c.name = s && c.url.isSome) cs with
        | some q =>
          obtain ⟨a, leaf0, b⟩ := q
          have hsplit := splitFirst_eq _ cs a leaf0 b hsp2
          intro c hc
          simp only [DocMapNode.children] at hc
          rcases List.mem_append.mp hc with hm | hm
          · rcases List.mem_append.mp hm with h2 | h2
            · apply h
              rw [hsplit]
              exact List.mem_append.mpr (Or.inl h2)
            · have hcg : c = insertSegs (s2 :: rest2) u t
                  (.mk (i ++ "/" ++ s) s none [leaf0]) := by simpa using h2
              rw [hcg]
              have hgood0 : AllGood leaf0 := by
                apply h
                rw [hsplit]
                exact List.mem_append.mpr (Or.inr (List.mem_cons_self _ _))
              refine AllGood.intro
                (Or.inr (insertSegs_children_ne _ _ _ _ _)) ?_
              refine ih u t _ ?_
              intro c2 hc2
              have hcl : c2 = leaf0 := by
                simpa [DocMapNode.children] using hc2
              rw [hcl]
              exact hgood0
          · apply h
            rw [hsplit]
            exact List.mem_append.mpr (Or.inr (List.mem_cons_of_mem _ hm))
        | none =>
          intro c hc
          simp only [DocMapNode.children] at hc
          rcases List.mem_append.mp hc with hm | hm
          · exact h c hm
          · have hcg : c = insertSegs (s2 :: rest2) u t
                (.mk (i ++ "/" ++ s) s none []) := by simpa using hm
            rw [hcg]
            refine AllGood.intro
              (Or.inr (insertSegs_children_ne _ _ _ _ _)) ?_
            refine ih u t _ ?_
            intro c2 hc2
            simp [DocMapNode.children] at hc2

theorem insertSegs_D (segs : List String) (u t : String) (n : DocMapNode) :
    (insertSegs segs u t n).url.isSome = true ∨
      (insertSegs segs u t n).children ≠ [] := by
  cases segs with
  | nil => left; rw [insertSegs_url_nil]; rfl
  | cons s rest => right; exact insertSegs_children_ne _ _ _ _ _

theorem insertSegs_url_mono (segs : List String) (u t : String)
    (n : DocMapNode) (h : n.url.isSome = true) :
    (insertSegs segs u t n).url.isSome = true := by
  cases segs with
  | nil => rw [insertSegs_url_nil]; rfl
  | cons s rest => rw [insertSegs_url_cons]; exact h

theorem insertSegs_children_mono (segs : List String) (u t : String)
    (n : DocMapNode) (h : n.children ≠ []) :
    (insertSegs segs u t n).children ≠ [] := by
  cases segs with
  | nil => rw [insertSegs_children_nil]; exact h
  | cons s rest => exact insertSegs_children_ne _ _ _ _ _

theorem buildFold_good
    (items : List ((String × List String) × VisitedPage)) :
    ∀ acc : DocMapNode, (∀ c ∈ acc.children, AllGood c) →
      ∀ c ∈ (items.foldl
        (fun acc y => insertSegs y.1.2 y.2.url y.2.title acc) acc).children,
        AllGood c := by
  induction items with
  | nil => intro acc h; exact h
  | cons y ys ih =>
    intro acc h
    exact ih _ (insertSegs_good y.1.2 y.2.url y.2.title acc h)

theorem buildFold_D (items : List ((String × List String) × VisitedPage)) :
    ∀ acc : DocMapNode, (acc.url.isSome = true ∨ acc.children ≠ []) →
      ((items.foldl
        (fun acc y => insertSegs y.1.2 y.2.url y.2.title acc) acc).url.isSome
          = true ∨
        (items.foldl
          (fun acc y => insertSegs y.1.2 y.2.url y.2.title acc) acc).children
          ≠ []) := by
  induction items with
  | nil => intro acc h; exact h
  | cons y ys ih =>
    intro acc h
    rcases h with h | h
    · exact ih _ (Or.inl (insertSegs_url_mono _ _ _ _ h))
    · exact ih _ (Or.inr (insertSegs_children_mono _ _ _ _ h))

theorem buildMap_allGood (vs : List VisitedPage) (node : DocMapNode)
    (h : buildMap vs = .ok node) : AllGood node := by
  unfold buildMap at h
  cases hp : parsePages vs with
  | error e => rw [hp] at h; simp at h
  | ok items =>
    rw [hp] at h
    cases items with
    | nil => simp at h
    | cons x rest =>
      simp at h
      rw [← h]
      refine AllGood.intro ?_ ?_
      · exact buildFold_D rest _ (insertSegs_D _ _ _ _)
      · refine buildFold_good rest _ ?_
        refine insertSegs_good _ _ _ _ ?_
        intro c hc
        simp [DocMapNode.children] at hc

theorem subnode_allGood :
    ∀ (m n : DocMapNode), Subnode m n → AllGood n → AllGood m := by
  intro m n hs
  induction hs with
  | refl => exact fun h => h
  | child hc hsub ih => exact fun hg => ih (hg.children_good _ hc)

/-! ### Claim theorems -/

/-- Claim C2: the Documentation Map Builder is pure and idempotent — on the
same VisitedPage sequence it returns structurally identical trees (it is a
function, so the two results are equal), and it succeeds exactly on
well-formed input: its only failure mode is a `MapBuildError` on malformed
input (a URL that does not parse, or no page at all), in which case no tree
is produced at all. -/
theorem mapBuilder_pure_and_total_on_wellformed :
    ∀ vs : List VisitedPage,
      buildMap vs = buildMap vs ∧
      ((∃ node, buildMap vs = .ok node) ↔
        (vs ≠ [] ∧ ∀ p ∈ vs, (parseUrl p.url).isSome = true)) := by
  intro vs
  refine ⟨rfl, ?_⟩
  constructor
  · rintro ⟨node, hnode⟩
    unfold buildMap at hnode
    cases hp : parsePages vs with
    | error e => rw [hp] at hnode; simp at hnode
    | ok items =>
      rw [hp] at hnode
      cases items with
      | nil => simp at hnode
      | cons x rest =>
        refine ⟨?_, parsePages_ok_forall vs _ hp⟩
        intro hnil
        subst hnil
        simp [parsePages] at hp
  · rintro ⟨hne, hall⟩
    obtain ⟨items, hitems⟩ := parsePages_ok_of_forall vs hall
    have hlen := parsePages_length vs items hitems
    cases items with
    | nil =>
      simp at hlen
      exact absurd (List.length_eq_zero.mp hlen.symm) hne
    | cons x rest =>
      exact ⟨(x :: rest).foldl
        (fun acc y => insertSegs y.1.2 y.2.url y.2.title acc)
        (.mk "root" x.1.1 none []), by unfold buildMap; rw [hitems]⟩

/-- Claim C5: `create` validates the configuration — every valid
configuration yields a queued Task with `pages_indexed = 0` and no end time,
registered by `submitTask`; every invalid configuration fails with
`InvalidConfig` and leaves the registry untouched. -/
theorem create_validates_config :
    ∀ (reg : List Task) (idStr : String) (now : Nat) (c : CrawlConfig),
      ((parseUrl c.url).isSome = true → 1 ≤ c.max_depth → 1 ≤ c.max_pages →
        ∃ t, create idStr now c = .ok t ∧
          submitTask reg idStr now c = .ok (t.task_id, reg ++ [t]) ∧
          t.status = .queued ∧ t.pages_indexed = 0 ∧ t.end_time = none)
      ∧ (¬((parseUrl c.url).isSome = true ∧ 1 ≤ c.max_depth ∧ 1 ≤ c.max_pages) →
        create idStr now c = .error .invalidConfig ∧
        submitTask reg idStr now c = .error .invalidConfig) := by
  intro reg idStr now c
  constructor
  · intro h1 h2 h3
    have hv : validConfig c = true := by simp [validConfig, h1, h2, h3]
    refine ⟨{ task_id := idStr, url := c.url, config := c, status := .queued,
              start_time := now, end_time := none, pages_indexed := 0,
              links_followed := 0, errors := 0, error := none },
            ?_, ?_, rfl, rfl, rfl⟩
    · simp [create, hv]
    · simp [submitTask, create, hv]
  · intro h
    have hv : validConfig c = false := by
      rw [Bool.eq_false_iff]
      intro hvt
      apply h
      simpa [validConfig, and_assoc] using hvt
    exact ⟨by simp [create, hv], by simp [submitTask, create, hv]⟩

/-- Witness for C5 at a concrete valid and a concrete invalid
configuration. -/
theorem create_validates_config_check :
    (∃ t, create "t1" 0
        ⟨"https://docs.example.com/", 3, 100, .breadth, true, "Docu-Eater/1.0"⟩
        = .ok t ∧ t.status = .queued ∧ t.pages_indexed = 0 ∧
        t.end_time = none) ∧
    create "t2" 0 ⟨"https://docs.example.com/", 0, 100, .breadth, true, "ua"⟩
      = .error .invalidConfig := by
  constructor
  · obtain ⟨t, h1, _, h3, h4, h5⟩ :=
      (create_validates_config [] "t1" 0
        ⟨"https://docs.example.com/", 3, 100, .breadth, true, "Docu-Eater/1.0"⟩).1
        (by decide) (by decide) (by decide)
    exact ⟨t, h1, h3, h4, h5⟩
  · exact ((create_validates_config [] "t2" 0
      ⟨"https://docs.example.com/", 0, 100, .breadth, true, "ua"⟩).2
        (by intro h; exact absurd h.2.1 (by decide))).1

theorem isPrefixOf_self_append :
    ∀ (l m : List Char), l.isPrefixOf (l ++ m) = true := by
  intro l m
  induction l with
  | nil => simp [List.isPrefixOf]
  | cons a as ih => simp [List.isPrefixOf, ih]

/-- Claim C9: every URL the new-crawl form actually submits starts with
"http://" or "https://" (the handler prepends "https://" otherwise), and an
input that is empty or only whitespace is never submitted. -/
theorem submitted_url_has_scheme :
    ∀ url u : String,
      (handleSubmitUrl url = some u →
        strHasPrefix u "http://" = true ∨ strHasPrefix u "https://" = true)
      ∧ (jsTrim url = "" → handleSubmitUrl url = none) := by
  intro url u
  constructor
  · intro h
    unfold handleSubmitUrl at h
    split at h
    · simp at h
    · split at h
      · rename_i hcond
        have hcond2 : strHasPrefix (jsTrim url) "http://" = true ∨
            strHasPrefix (jsTrim url) "https://" = true := by simpa using hcond
        rcases hcond2 with hp | hp
        · left; rw [← Option.some_inj.mp h]; exact hp
        · right; rw [← Option.some_inj.mp h]; exact hp
      · right
        rw [← Option.some_inj.mp h]
        unfold strHasPrefix
        rw [String.data_append]
        exact isPrefixOf_self_append _ _
  · intro h
    simp [handleSubmitUrl, h]

/-- Witness for C9 at a concrete scheme-less input. -/
theorem submitted_url_has_scheme_check :
    handleSubmitUrl "docs.example.com" = some "https://docs.example.com" ∧
    (strHasPrefix "https://docs.example.com" "http://" = true ∨
      strHasPrefix "https://docs.example.com" "https://" = true) := by
  refine ⟨by decide, ?_⟩
  exact (submitted_url_has_scheme "docs.example.com"
    "https://docs.example.com").1 (by decide)

/-- Claim C10: `ApiService.getAllTasks` never raises — it is a total
function of the request outcome, returns the response list on success, the
empty list on any failure, and a failing backend is indistinguishable from a
backend with zero tasks. -/
theorem getAllTasks_total :
    (∀ ts, getAllTasks (.success ts) = ts) ∧
    (∀ m, getAllTasks (.failure m) = []) ∧
    (∀ m, getAllTasks (.failure m) = getAllTasks (.success [])) :=
  ⟨fun _ => rfl, fun _ => rfl, fun _ => rfl⟩

/-- Claim C1: `pages_indexed` never exceeds `max_pages` and always equals
the size of the (duplicate-free) VisitedPage set; `recordPageVisited` is a
no-op once `pages_indexed` has reached `max_pages`; and on a completed crawl
over a link graph offering at least `max_pages` reachable URLs the budget is
met exactly (with `max_pages = 5` and 20 reachable URLs, exactly 5
VisitedPages are recorded). -/
theorem pages_budget_respected :
    (∀ (p : CrawlParams) (g : LinkGraph) (cs : List Choice),
      (run p g cs).pages_indexed ≤ p.maxPages ∧
      (run p g cs).pages_indexed = (run p g cs).visited.length ∧
      (visitedUrls (run p g cs)).Nodup) ∧
    (∀ (p : CrawlParams) (s : CrawlState) (u t : String) (n : Nat),
      p.maxPages ≤ s.pages_indexed → recordPageVisited p s u t n = s) ∧
    (∀ (p : CrawlParams) (g : LinkGraph) (R L : List String)
        (cs : List Choice),
      (∀ u, g.fetchOk u = true) → p.rootUrl ∈ R →
      (∀ u ∈ R, ∀ v ∈ g.links u, v ∈ R) → R.length ≤ p.maxDepth →
      1 ≤ p.maxPages → L.Nodup →
      (∀ u ∈ L, Reachable g p.rootUrl u) → p.maxPages ≤ L.length →
      crawlCompleted p (run p g cs) →
      (run p g cs).pages_indexed = p.maxPages ∧
      (run p g cs).visited.length = p.maxPages) := by
  refine ⟨?_, ?_, ?_⟩
  · intro p g cs
    obtain ⟨h1, h2, h3⟩ := invCore_run p g cs
    exact ⟨h2, h1, (nodup_triple _ _ _ h3).1⟩
  · intro p s u t n h
    unfold recordPageVisited
    rw [if_neg (Nat.not_lt.mpr h)]
  · intro p g R L cs hok hrootR hclosed hdepth hmp hLnd hLre hLlen hfin
    have hpm := run_budget_exact p g R L hok hrootR hclosed hdepth hmp hLnd
      hLre hLlen cs hfin
    have hpe := (invCore_run p g cs).1
    exact ⟨hpm, by omega⟩

/-- A synthetic link graph whose root "z" links to twenty distinct URLs. -/
def gBudget : LinkGraph :=
  ⟨fun u => if u = "z" then
      ["a", "b", "c", "d", "e", "f", "g", "h", "i", "j",
       "k", "l", "m", "n", "o", "p", "q", "r", "s", "t"] else [],
    fun _ => true, fun _ => ""⟩

def RBudget : List String :=
  ["z", "a", "b", "c", "d", "e", "f", "g", "h", "i", "j",
   "k", "l", "m", "n", "o", "p", "q", "r", "s", "t"]

def pBudget : CrawlParams := ⟨"z", 21, 5, 1, .breadth⟩

def csBudget : List Choice :=
  [.dispatch, .complete 0, .dispatch, .complete 0, .dispatch, .complete 0,
   .dispatch, .complete 0, .dispatch, .complete 0]

set_option maxRecDepth 20000 in
/-- Witness for C1: with `max_pages = 5` and twenty reachable URLs, a
completed crawl records exactly five VisitedPages. -/
theorem pages_budget_respected_check :
    (run pBudget gBudget csBudget).pages_indexed = 5 ∧
    (run pBudget gBudget csBudget).visited.length = 5 := by
  have hreach : ∀ u ∈ RBudget, Reachable gBudget pBudget.rootUrl u := by
    intro u hu
    fin_cases hu
    · exact Reachable.root
    all_goals exact Reachable.step Reachable.root (by decide)
  obtain ⟨h1, h2⟩ := pages_budget_respected.2.2 pBudget gBudget RBudget
    RBudget csBudget (fun u => rfl) (by decide) (by decide) (by decide)
    (by decide) (by decide) hreach (by decide) (by decide)
  exact ⟨h1, h2⟩

/-- Claim C3: if the gateway fails on the root URL, nothing is ever indexed,
and once the worker pool has drained its work the task is failed with the
root-fetch error message recorded; a failure on a non-root URL only
increments the `errors` counter, removes the fetch from flight, and crawling
continues (status, counters and the visited set are untouched). -/
theorem root_fetch_failure_fatal :
    (∀ (p : CrawlParams) (g : LinkGraph) (cs : List Choice),
      g.fetchOk p.rootUrl = false →
      (run p g cs).pages_indexed = 0 ∧ (run p g cs).visited = [] ∧
      ((run p g cs).frontier = [] ∧ (run p g cs).inflight = [] →
        (run p g cs).failed =
          some ("Failed to fetch root URL: " ++ p.rootUrl) ∧
        (run p g cs).errors = 1)) ∧
    (∀ (p : CrawlParams) (g : LinkGraph) (s : CrawlState) (i : Nat)
        (e : FrontierEntry),
      s.failed = none → s.inflight[i]? = some e → e.url ≠ p.rootUrl →
      g.fetchOk e.url = false →
      step p g s (.complete i) =
        { s with inflight := s.inflight.eraseIdx i,
                 errors := s.errors + 1 }) := by
  constructor
  · intro p g cs hroot
    obtain ⟨hv, hp, hdisj⟩ := invFail_run p g hroot cs
    refine ⟨hp, hv, ?_⟩
    rintro ⟨hfr, hifl⟩
    rcases hdisj with ⟨hsing, _, _⟩ | ⟨_, _, hfl, he⟩
    · exfalso
      have h0 : ([] : List String) = [p.rootUrl] := by
        rw [← hsing]
        simp [frontierUrls, inflightUrls, hfr, hifl]
      simp at h0
    · exact ⟨hfl, he⟩
  · intro p g s i e hfn hidx hne hfe
    have hnotsome : s.failed.isSome = false := by rw [hfn]; rfl
    simp [step, hnotsome, hidx, hfe, completeErr, recordError, if_neg hne]

def gFail : LinkGraph := ⟨fun _ => [], fun _ => false, fun _ => ""⟩

def pFail : CrawlParams := ⟨"r", 3, 10, 1, .breadth⟩

/-- Witness for C3: a schedule that dispatches and completes the failing
root fetch ends with zero pages, one error and the root error message. -/
theorem root_fetch_failure_fatal_check :
    (run pFail gFail [.dispatch, .complete 0]).pages_indexed = 0 ∧
    (run pFail gFail [.dispatch, .complete 0]).failed =
      some ("Failed to fetch root URL: " ++ "r") ∧
    (run pFail gFail [.dispatch, .complete 0]).errors = 1 := by
  obtain ⟨h1, h2, h3⟩ :=
    root_fetch_failure_fatal.1 pFail gFail [.dispatch, .complete 0] rfl
  exact ⟨h1, (h3 ⟨by decide, by decide⟩).1, (h3 ⟨by decide, by decide⟩).2⟩

/-- A synthetic link graph whose root "r" links to "a" and "b". -/
def gTwo : LinkGraph :=
  ⟨fun u => if u = "r" then ["a", "b"] else [], fun _ => true, fun _ => ""⟩

def pOne : CrawlParams := ⟨"r", 2, 2, 1, .breadth⟩

def pTwo : CrawlParams := ⟨"r", 2, 2, 2, .breadth⟩

/-- Counterexample for C4: with a binding page budget (`max_pages = 2`, three
reachable URLs) and a fixed breadth-first discipline, a one-worker crawl and
a two-worker crawl both complete but visit different URL sets — the claim
that membership is identical regardless of worker count fails. -/
theorem visited_set_depends_on_worker_count :
    crawlCompleted pOne
      (run pOne gTwo [.dispatch, .complete 0, .dispatch, .complete 0]) ∧
    crawlCompleted pTwo (run pTwo gTwo
      [.dispatch, .complete 0, .dispatch, .dispatch, .complete 1,
        .complete 0]) ∧
    pOne.rootUrl = pTwo.rootUrl ∧ pOne.maxDepth = pTwo.maxDepth ∧
    pOne.maxPages = pTwo.maxPages ∧ pOne.crawlType = pTwo.crawlType ∧
    pOne.workers = 1 ∧ pTwo.workers = 2 ∧
    "a" ∈ visitedUrls
      (run pOne gTwo [.dispatch, .complete 0, .dispatch, .complete 0]) ∧
    "a" ∉ visitedUrls (run pTwo gTwo
      [.dispatch, .complete 0, .dispatch, .dispatch, .complete 1,
        .complete 0]) := by
  decide

/-- Claim C4 (amended): for a fixed all-success link graph and a fixed
Frontier discipline, and whenever neither the page budget nor the depth
limit can truncate the crawl (a link-closed universe `R` containing the root
satisfies `R.length ≤ max_depth` and `R.length < max_pages`), any two
completed crawls — regardless of their worker counts and schedules — visit
exactly the same URL set, namely the reachable URLs; with a binding budget
the visited set can depend on the interleaving. -/
theorem visited_membership_invariance_without_truncation :
    ∀ (p1 p2 : CrawlParams) (g : LinkGraph) (R : List String)
      (cs1 cs2 : List Choice),
      p1.rootUrl = p2.rootUrl → p1.maxDepth = p2.maxDepth →
      p1.maxPages = p2.maxPages → p1.crawlType = p2.crawlType →
      (∀ u, g.fetchOk u = true) → p1.rootUrl ∈ R →
      (∀ u ∈ R, ∀ v ∈ g.links u, v ∈ R) → R.length ≤ p1.maxDepth →
      R.length < p1.maxPages →
      crawlCompleted p1 (run p1 g cs1) →
      crawlCompleted p2 (run p2 g cs2) →
      ∀ u, u ∈ visitedUrls (run p1 g cs1) ↔
        u ∈ visitedUrls (run p2 g cs2) := by
  intro p1 p2 g R cs1 cs2 hroot hdep hpag hct hok hrootR hclosed hdepth hbig
    hfin1 hfin2 u
  have h1 := run_visited_iff_reachable p1 g R hok hrootR hclosed hdepth hbig
    cs1 hfin1 u
  have h2 := run_visited_iff_reachable p2 g R hok (hroot ▸ hrootR) hclosed
    (hdep ▸ hdepth) (hpag ▸ hbig) cs2 hfin2 u
  rw [h1, h2, hroot]

def pWOne : CrawlParams := ⟨"r", 3, 10, 1, .breadth⟩

def pWTwo : CrawlParams := ⟨"r", 3, 10, 2, .breadth⟩

/-- Witness for the amended C4: with a non-binding budget, a one-worker and
a two-worker completed crawl agree on membership. -/
theorem visited_membership_invariance_check :
    "a" ∈ visitedUrls (run pWOne gTwo
      [.dispatch, .complete 0, .dispatch, .complete 0, .dispatch,
        .complete 0]) ↔
    "a" ∈ visitedUrls (run pWTwo gTwo
      [.dispatch, .complete 0, .dispatch, .dispatch, .complete 1,
        .complete 0]) :=
  visited_membership_invariance_without_truncation pWOne pWTwo gTwo
    ["r", "a", "b"] _ _ rfl rfl rfl rfl (fun u => rfl) (by decide)
    (by decide) (by decide) (by decide) (by decide) (by decide) "a"

/-- Claim C6: `create` rejects any configuration with `max_depth = 0` as
`InvalidConfig`; and in the crawl semantics a task whose `max_depth` is 0
only ever fetches the root URL, while `links_followed` still records the
links discovered on the root page (never enqueued), distinctly from
`pages_indexed`. -/
theorem depth_zero_crawls_only_root :
    (∀ (idStr : String) (now : Nat) (c : CrawlConfig), c.max_depth = 0 →
      create idStr now c = .error .invalidConfig) ∧
    (∀ (p : CrawlParams) (g : LinkGraph) (cs : List Choice),
      p.maxDepth = 0 →
      (∀ u ∈ allUrls (run p g cs), u = p.rootUrl) ∧
      ((run p g cs).visited = [] ∧ (run p g cs).pages_indexed = 0 ∧
          (run p g cs).links_followed = 0 ∨
        visitedUrls (run p g cs) = [p.rootUrl] ∧
          (run p g cs).pages_indexed = 1 ∧
          (run p g cs).links_followed = (g.links p.rootUrl).length)) := by
  constructor
  · intro idStr now c hc
    have hv : validConfig c = false := by
      simp [validConfig, hc]
    simp [create, hv]
  · intro p g cs hd0
    exact invD0_run p g hd0 cs

def gDZero : LinkGraph :=
  ⟨fun u => if u = "r" then ["a", "b", "c"] else [], fun _ => true,
    fun _ => ""⟩

def pDZero : CrawlParams := ⟨"r", 0, 10, 1, .breadth⟩

/-- Witness for C6: with `max_depth = 0` and three links on the root page,
only the root is visited, yet `links_followed = 3` while
`pages_indexed = 1`, and nothing was ever enqueued. -/
theorem depth_zero_crawls_only_root_check :
    create "t" 0 ⟨"https://docs.example.com/", 0, 100, .breadth, true, "ua"⟩
      = .error .invalidConfig ∧
    visitedUrls (run pDZero gDZero [.dispatch, .complete 0]) = ["r"] ∧
    (run pDZero gDZero [.dispatch, .complete 0]).pages_indexed = 1 ∧
    (run pDZero gDZero [.dispatch, .complete 0]).links_followed = 3 ∧
    (run pDZero gDZero [.dispatch, .complete 0]).frontier = [] := by
  refine ⟨depth_zero_crawls_only_root.1 "t" 0 _ rfl, ?_, ?_, ?_, ?_⟩ <;>
    decide

/-- Claim C8: in every built documentation map, childless nodes (leaves)
carry a URL and URL-less groupings have at least one child, and the consumer
(renderDocumentTree) classifies a node as a folder exactly by its children
being non-empty, independently of every other attribute. -/
theorem folder_iff_children :
    (∀ n : DocMapNode, isFolder n = true ↔ n.children ≠ []) ∧
    (∀ n1 n2 : DocMapNode, n1.children = n2.children →
      isFolder n1 = isFolder n2) ∧
    (∀ (vs : List VisitedPage) (node m : DocMapNode),
      buildMap vs = .ok node → Subnode m node →
      ((isFolder m = false → m.url.isSome = true) ∧
        (m.url = none → isFolder m = true))) := by
  refine ⟨?_, ?_, ?_⟩
  · intro n
    simp [isFolder, List.length_pos]
  · intro n1 n2 h
    simp [isFolder, h]
  · intro vs node m hb hsub
    have hgood := buildMap_allGood vs node hb
    have hm := subnode_allGood m node hsub hgood
    have hd := hm.d
    constructor
    · intro hff
      rcases hd with h | h
      · exact h
      · exfalso
        simp [isFolder, List.length_pos] at hff
        exact h hff
    · intro hnone
      rcases hd with h | h
      · rw [hnone] at h
        simp at h
      · simp [isFolder, List.length_pos]
        exact h

/-- Witness for C8: in the map built from the pages "https://d/" and
"https://d/guide", the leaf for the guide page is not rendered as a folder
and carries its URL. -/
theorem folder_iff_children_check :
    isFolder (DocMapNode.mk "root/guide" "guide" (some "https://d/guide") [])
      = false ∧
    (DocMapNode.mk "root/guide" "guide"
      (some "https://d/guide") []).url.isSome = true := by
  refine ⟨by decide, ?_⟩
  refine (folder_iff_children.2.2
    [⟨"https://d/", "Home", 0⟩, ⟨"https://d/guide", "Guide", 1⟩]
    (DocMapNode.mk "root" "d" (some "https://d/")
      [DocMapNode.mk "root/guide" "guide" (some "https://d/guide") []])
    (DocMapNode.mk "root/guide" "guide" (some "https://d/guide") [])
    (by decide) ?_).1 (by decide)
  exact Subnode.child (by simp [DocMapNode.children]) (Subnode.refl _)

/-- Counterexample for C7: the client `CrawlTask` shape does not match the
spec TaskSnapshot contract exactly — the `start_time` field is optional in
the client type but required by the contract. -/
theorem wire_shape_mismatch_start_time :
    sigOf codeCrawlTaskFields "start_time" = some (false, .str) ∧
    sigOf specTaskSnapshotFields "start_time" = some (true, .str) ∧
    sigOf codeCrawlTaskFields "start_time" ≠
      sigOf specTaskSnapshotFields "start_time" := by
  decide

/-- Claim C7 (amended): the DocMapNode shape matches the contract exactly;
the client `CrawlTask` shape is a widening of the TaskSnapshot contract —
every contract field is present with the same kind and no new requiredness
(`start_time` and `stats` become optional, as do all stats subfields), and
the only extra field is the optional `duration`. -/
theorem wire_shapes_widening :
    codeDocMapNodeFields = specDocMapNodeFields ∧
    (∀ q ∈ specTaskSnapshotFields ++ codeCrawlTaskFields,
      widensAt (sigOf specTaskSnapshotFields q.1)
        (sigOf codeCrawlTaskFields q.1) = true) ∧
    (codeCrawlTaskFields.filter
      (fun q => (sigOf specTaskSnapshotFields q.1).isNone)).map (fun q => q.1)
      = ["duration"] ∧
    specStatsFields.map (fun q => q.1) =
      codeCrawlStatsFields.map (fun q => q.1) ∧
    (∀ q ∈ specStatsFields ++ codeCrawlStatsFields,
      widensAt (sigOf specStatsFields q.1)
        (sigOf codeCrawlStatsFields q.1) = true) := by
  decide

end DocuEater
